import Mathlib

/-!
# Verification of the feature-store scratchpad (`fs.py`)

A shallow embedding of the feature dependency-resolution engine of the
repository: the memoized recursive evaluator `Entity.calculate_feature_value`,
stipulation, the value cache, and the `Session.dump` hydration loop, together
with proofs of the specification's testable properties.

Modelling conventions:
* Python floats are modelled as exact rationals (`PyFloat`); every float the
  claims touch is exactly representable, and the arithmetic involved
  (`3.0 * 2.0`) is exact in IEEE double precision as well.
* `Entity.get_feature_hash` md5-hashes the separator-free concatenation
  `className ++ featureClassName ++ entityName`.  We model the key by that
  concatenation itself: equal concatenations give equal md5 digests, so every
  collision exhibited here is a real collision of the Python code; in the
  other direction md5 is treated as injective (md5 collisions of distinct
  strings are outside the scope of a shallow embedding).
* Python classes are identified by their `__name__`; the process-wide
  `globals()` dictionary through which `Feature.dependency_classes` resolves
  its annotation strings is modelled by a registry `String → Option FeatureDef`.
* The recursive evaluator is given a fuel parameter; `none` models a
  computation that does not terminate (the fuel runs out at every bound) or a
  failed `globals()` lookup.  Each nested Python call consumes one unit of
  fuel, so the least sufficient fuel is the maximal recursion depth reached.
-/

/-- An exact rational, stored as a reduced fraction (`num / den`, `den > 0`
for every value the operations below construct).  It models a Python float:
every float literal and every arithmetic result appearing in this program
(`3.0`, `2.0`, `3.0 * 2.0 = 6.0`, `float("3.0")`, …) is exactly representable
and exactly computed in IEEE double precision, so the rational model is
faithful on all values the claims touch. -/
structure PyFloat where
  num : Int
  den : Nat
  deriving DecidableEq, Repr

/-- Build the reduced fraction `n / d`. -/
def PyFloat.norm (n : Int) (d : Nat) : PyFloat :=
  let g := Nat.gcd n.natAbs d
  if g = 0 then ⟨0, 1⟩ else ⟨n / (g : Int), d / g⟩

/-- The float `n.0`. -/
def PyFloat.ofInt (n : Int) : PyFloat := ⟨n, 1⟩

/-- Float multiplication. -/
def PyFloat.mul (a b : PyFloat) : PyFloat :=
  PyFloat.norm (a.num * b.num) (a.den * b.den)

/-- A Python value as used by the program: a float or a string. -/
inductive Value where
  | vFloat (q : PyFloat)
  | vStr (s : String)
  deriving DecidableEq, Repr

/-- `NO_VALUE = "__NO_VALUE__"` — the in-band sentinel the cache returns for
absent keys (line 13 of `fs.py`). -/
def NO_VALUE : Value := Value.vStr "__NO_VALUE__"

/-- `FeatureValueCache` (lines 43–57): a Python dict from key strings to
values, modelled as an insertion-ordered association list with unique keys. -/
structure FeatureValueCache where
  entries : List (String × Value)
  deriving DecidableEq, Repr

/-- `__contains__`: dict membership. -/
def FeatureValueCache.containsKey (c : FeatureValueCache) (k : String) : Bool :=
  c.entries.any (fun p => p.1 == k)

/-- `__getitem__`: `self._cache.get(key, NO_VALUE)` — lookup with the
`NO_VALUE` sentinel as default. -/
def FeatureValueCache.getitem (c : FeatureValueCache) (k : String) : Value :=
  ((c.entries.find? (fun p => p.1 == k)).map Prod.snd).getD NO_VALUE

/-- `__setitem__`: dict assignment; an existing binding is overwritten in
place (Python dicts keep insertion order), a new one is appended. -/
def FeatureValueCache.setitem (c : FeatureValueCache) (k : String) (v : Value) :
    FeatureValueCache :=
  if c.containsKey k then
    ⟨c.entries.map (fun p => if p.1 == k then (k, v) else p)⟩
  else
    ⟨c.entries ++ [(k, v)]⟩

/-- `__delitem__`: `del` raises `KeyError` on a missing key, modelled by
`none`. -/
def FeatureValueCache.delitem (c : FeatureValueCache) (k : String) :
    Option FeatureValueCache :=
  if c.containsKey k then some ⟨c.entries.filter (fun p => p.1 != k)⟩ else none

/-- The empty cache (`FeatureValueCache.__init__`). -/
def emptyCache : FeatureValueCache := ⟨[]⟩

/-- An `Entity` instance: its class's `__name__` and its `name` attribute.
The shared value cache held by the Python object is threaded explicitly
through the operations below. -/
structure Entity where
  className : String
  name : String
  deriving DecidableEq, Repr

/-- `Entity.get_feature_hash` (lines 218–220): the key is
`''.join([self.__class__.__name__, feature_class.__name__, self.name])`,
then md5-hashed; we keep the concatenation itself (see the header comment). -/
def Entity.get_feature_hash (e : Entity) (featureClassName : String) : String :=
  e.className ++ featureClassName ++ e.name

/-- A `Feature` subclass: its static metadata.  `name` is the display name,
`entityClassName` the `__name__` of its `entity` attribute, `valueType` the
`value_type` callable (`none` models a raised conversion error), `deps` the
annotation strings of `calculate` (resolved through `globals()`), and
`calcFn` the `calculate` method itself (`self`, then the positional
dependency values). -/
structure FeatureDef where
  name : String
  entityClassName : String
  valueType : Value → Option Value
  deps : List String
  calcFn : Entity → List Value → Value

/-- The process `globals()` as far as `Feature` subclasses are concerned:
class name → class. -/
def Registry := String → Option FeatureDef

/-- The dependency loop inside `Entity.calculate_feature_value` (lines
232–234): resolve each dependency with the recursive call `step`, then write
`value_cache[get_feature_hash(dep)] = dependency_value`.  Returns the final
cache and the concatenated traces of `calculate` invocations. -/
def calcDepsAux (e : Entity)
    (step : FeatureValueCache → String → Option (Value × FeatureValueCache × List String)) :
    FeatureValueCache → List String → Option (FeatureValueCache × List String)
  | c, [] => some (c, [])
  | c, d :: ds =>
    match step c d with
    | none => none
    | some (v, c1, t1) =>
      match calcDepsAux e step (c1.setitem (e.get_feature_hash d) v) ds with
      | none => none
      | some (c2, t2) => some (c2, t1 ++ t2)

/-- `Entity.calculate_feature_value` (lines 222–241).  If the feature's hash
is in the cache, return the cached value (no writes).  Otherwise resolve every
dependency recursively (caching each), read the arguments back out of the
cache, invoke `calculate`, cache and return the result.  The trace component
records each `calculate` invocation (by feature class name) in order; `none`
models non-termination (fuel exhausted at every bound) or a failed `globals()`
lookup of a dependency annotation. -/
def Entity.calculate_feature_value (reg : Registry) (e : Entity) :
    Nat → FeatureValueCache → String → Option (Value × FeatureValueCache × List String)
  | 0, _, _ => none
  | fuel + 1, c, fcn =>
    if c.containsKey (e.get_feature_hash fcn) then
      some (c.getitem (e.get_feature_hash fcn), c, [])
    else
      match reg fcn with
      | none => none
      | some fd =>
        match calcDepsAux e (fun c' d => Entity.calculate_feature_value reg e fuel c' d)
            c fd.deps with
        | none => none
        | some (c1, tr) =>
          let args := fd.deps.map (fun d => c1.getitem (e.get_feature_hash d))
          let v := fd.calcFn e args
          some (v, c1.setitem (e.get_feature_hash fcn) v, tr ++ [fcn])

/-- `Entity.stipulate_feature_value` (lines 243–244):
`value_cache[get_feature_hash(feature_class)] = feature_class.value_type(value)`.
`none` models a failed `globals()` lookup of the feature class or a raised
value-conversion error. -/
def Entity.stipulate_feature_value (reg : Registry) (e : Entity)
    (c : FeatureValueCache) (fcn : String) (raw : Value) : Option FeatureValueCache :=
  match reg fcn with
  | none => none
  | some fd =>
    match fd.valueType raw with
    | none => none
    | some w => some (c.setitem (e.get_feature_hash fcn) w)

/-- Read a digit string as a natural number; `none` on any non-digit. -/
def digitsToNatAux : Nat → List Char → Option Nat
  | acc, [] => some acc
  | acc, c :: cs =>
    if c.isDigit then digitsToNatAux (acc * 10 + (c.toNat - 48)) cs else none

/-- Parse an unsigned decimal literal (digits with an optional single dot,
as in `"3.0"`, `"3."` or `".5"`). -/
def pyFloatCore (cs : List Char) : Option PyFloat :=
  let intPart := cs.takeWhile (fun c => c ≠ '.')
  match cs.dropWhile (fun c => c ≠ '.') with
  | [] =>
    if intPart = [] then none
    else (digitsToNatAux 0 intPart).map (fun n => PyFloat.ofInt (n : Int))
  | _ :: frac =>
    if frac.any (fun c => c = '.') then none
    else if intPart = [] ∧ frac = [] then none
    else
      match digitsToNatAux 0 intPart, digitsToNatAux 0 frac with
      | some n, some f =>
        some (PyFloat.norm ((n : Int) * (10 : Int) ^ frac.length + (f : Int))
          ((10 : Nat) ^ frac.length))
      | _, _ => none

/-- Python's `float(...)` on the strings the program feeds it: a plain
decimal literal with an optional `-` sign is parsed exactly; anything else
raises (`none`). -/
def pyFloatOfString (s : String) : Option PyFloat :=
  match s.data with
  | '-' :: cs => (pyFloatCore cs).map (fun q => PyFloat.mk (-q.num) q.den)
  | cs => pyFloatCore cs

/-- The `float` value type used by `Width`, `Length` and `Area`. -/
def pyFloat : Value → Option Value
  | Value.vFloat q => some (Value.vFloat q)
  | Value.vStr s => (pyFloatOfString s).map Value.vFloat

/-- Python `*` on the values `Area.calculate` receives; non-float operands
would raise a `TypeError` in Python and are never produced in the
configurations below. -/
def pyMul : Value → Value → Value
  | Value.vFloat a, Value.vFloat b => Value.vFloat (a.mul b)
  | _, _ => Value.vStr "TypeError"

/-- The `Rectangle` configuration of `fs.py` (lines 337–385): `Width` and
`Length` are dependency-free features hardcoding `3.0` and `2.0`; `Area`
depends on them (by annotation strings `"Width"`, `"Length"`) and multiplies
the two dependency values. -/
def rectReg : Registry := fun s =>
  if s = "Width" then
    some ⟨"width", "Rectangle", pyFloat, [], fun _ _ => Value.vFloat (PyFloat.ofInt 3)⟩
  else if s = "Length" then
    some ⟨"length", "Rectangle", pyFloat, [], fun _ _ => Value.vFloat (PyFloat.ofInt 2)⟩
  else if s = "Area" then
    some ⟨"area", "Rectangle", pyFloat, ["Width", "Length"],
      fun _ args =>
        match args with
        | [w, l] => pyMul w l
        | _ => Value.vStr "TypeError"⟩
  else none

/-! ## Dictionary lemmas for `FeatureValueCache` -/

theorem find_replace_self (l : List (String × Value)) (k : String) (v : Value)
    (h : l.any (fun p => p.1 == k) = true) :
    (l.map (fun p => if p.1 == k then (k, v) else p)).find? (fun p => p.1 == k)
      = some (k, v) := by
  induction l with
  | nil => simp at h
  | cons p ps ih =>
    by_cases hp : p.1 = k
    · rw [List.map_cons, if_pos (by simp [hp])]
      exact List.find?_cons_of_pos _ (by simp)
    · simp only [List.any_cons, Bool.or_eq_true, beq_iff_eq] at h
      rcases h with h | h
      · exact absurd h hp
      · rw [List.map_cons, if_neg (by simp [hp]),
          List.find?_cons_of_neg _ (by simp [hp])]
        exact ih h

theorem find_replace_ne (l : List (String × Value)) (k : String) (v : Value)
    (k' : String) (hk : k' ≠ k) :
    (l.map (fun p => if p.1 == k then (k, v) else p)).find? (fun p => p.1 == k')
      = l.find? (fun p => p.1 == k') := by
  induction l with
  | nil => rfl
  | cons p ps ih =>
    by_cases hp : p.1 = k
    · rw [List.map_cons, if_pos (by simp [hp]),
        List.find?_cons_of_neg _ (by simp only [beq_iff_eq]; exact fun h => hk h.symm),
        List.find?_cons_of_neg _
          (by simp only [beq_iff_eq]; exact fun h => hk ((hp.symm.trans h).symm))]
      exact ih
    · by_cases hp' : p.1 = k'
      · rw [List.map_cons, if_neg (by simp [hp]),
          List.find?_cons_of_pos _ (by simp [hp']),
          List.find?_cons_of_pos _ (by simp [hp'])]
      · rw [List.map_cons, if_neg (by simp [hp]),
          List.find?_cons_of_neg _ (by simp [hp']),
          List.find?_cons_of_neg _ (by simp [hp'])]
        exact ih

theorem any_replace_self (l : List (String × Value)) (k : String) (v : Value)
    (h : l.any (fun p => p.1 == k) = true) :
    (l.map (fun p => if p.1 == k then (k, v) else p)).any (fun p => p.1 == k)
      = true := by
  induction l with
  | nil => simp at h
  | cons p ps ih =>
    by_cases hp : p.1 = k
    · rw [List.map_cons, if_pos (by simp [hp]), List.any_cons]
      simp
    · simp only [List.any_cons, Bool.or_eq_true, beq_iff_eq] at h
      rcases h with h | h
      · exact absurd h hp
      · rw [List.map_cons, if_neg (by simp [hp]), List.any_cons, ih h, Bool.or_true]

theorem any_replace_ne (l : List (String × Value)) (k : String) (v : Value)
    (k' : String) (hk : k' ≠ k) :
    (l.map (fun p => if p.1 == k then (k, v) else p)).any (fun p => p.1 == k')
      = l.any (fun p => p.1 == k') := by
  induction l with
  | nil => rfl
  | cons p ps ih =>
    by_cases hp : p.1 = k
    · rw [List.map_cons, if_pos (by simp [hp]), List.any_cons, List.any_cons, ih]
      have h1 : (k == k') = false := beq_eq_false_iff_ne.mpr (fun h => hk h.symm)
      have h2 : (p.1 == k') = false :=
        beq_eq_false_iff_ne.mpr (fun h => hk ((hp.symm.trans h).symm))
      rw [h1, h2]
    · rw [List.map_cons, if_neg (by simp [hp]), List.any_cons, List.any_cons, ih]

theorem FeatureValueCache.containsKey_mk (l : List (String × Value)) (k : String) :
    (FeatureValueCache.mk l).containsKey k = l.any (fun p => p.1 == k) := rfl

theorem FeatureValueCache.getitem_mk (l : List (String × Value)) (k : String) :
    (FeatureValueCache.mk l).getitem k
      = ((l.find? (fun p => p.1 == k)).map Prod.snd).getD NO_VALUE := rfl

theorem FeatureValueCache.containsKey_setitem (c : FeatureValueCache)
    (k : String) (v : Value) (k' : String) :
    (c.setitem k v).containsKey k' = ((k' == k) || c.containsKey k') := by
  by_cases hk : k' = k
  · subst hk
    simp only [beq_self_eq_true, Bool.true_or]
    unfold FeatureValueCache.setitem
    split
    · rename_i hc
      exact any_replace_self c.entries k' v hc
    · simp [FeatureValueCache.containsKey]
  · simp only [beq_eq_false_iff_ne.mpr hk, Bool.false_or]
    unfold FeatureValueCache.setitem
    split
    · exact any_replace_ne c.entries k v k' hk
    · rw [FeatureValueCache.containsKey_mk, List.any_append, List.any_cons,
        List.any_nil, show ((k, v).1 == k') = false from
          beq_eq_false_iff_ne.mpr (fun h => hk h.symm)]
      simp [FeatureValueCache.containsKey]

theorem FeatureValueCache.getitem_setitem_self (c : FeatureValueCache)
    (k : String) (v : Value) :
    (c.setitem k v).getitem k = v := by
  unfold FeatureValueCache.setitem
  split
  · rename_i hc
    rw [FeatureValueCache.getitem_mk, find_replace_self c.entries k v hc]
    rfl
  · rename_i hc
    simp only [FeatureValueCache.containsKey] at hc
    simp only [FeatureValueCache.getitem, List.find?_append]
    have : c.entries.find? (fun p => p.1 == k) = none := by
      rw [List.find?_eq_none]
      intro p hp
      simp only [beq_iff_eq]
      intro hpk
      exact hc (List.any_eq_true.mpr ⟨p, hp, by simp [hpk]⟩)
    simp [this, List.find?]

theorem FeatureValueCache.getitem_setitem_ne (c : FeatureValueCache)
    (k : String) (v : Value) (k' : String) (hk : k' ≠ k) :
    (c.setitem k v).getitem k' = c.getitem k' := by
  unfold FeatureValueCache.setitem
  split
  · rw [FeatureValueCache.getitem_mk, find_replace_ne c.entries k v k' hk]
    rfl
  · simp only [FeatureValueCache.getitem, List.find?_append]
    have : List.find? (fun p => p.1 == k') [(k, v)] = none := by
      simp [List.find?, beq_eq_false_iff_ne.mpr (fun h => hk h.symm)]
    cases hfind : c.entries.find? (fun p => p.1 == k') <;> simp [hfind, this]

theorem FeatureValueCache.getitem_of_not_containsKey (c : FeatureValueCache)
    (k : String) (h : c.containsKey k = false) :
    c.getitem k = NO_VALUE := by
  have : c.entries.find? (fun p => p.1 == k) = none := by
    rw [List.find?_eq_none]
    intro p hp
    simp only [beq_iff_eq]
    intro hpk
    rw [FeatureValueCache.containsKey, List.any_eq_true.mpr ⟨p, hp, by simp [hpk]⟩] at h
    exact Bool.true_eq_false.mp h
  simp [FeatureValueCache.getitem, this]

/-! ## Cache-key lemmas

`get_feature_hash` concatenates class name, feature class name and entity
name without separators.  Within a single entity the key determines the
feature name; across entities the keys can collide (see the cache-isolation
counterexample below). -/

theorem String.data_eq (s t : String) (h : s.data = t.data) : s = t := by
  cases s
  cases t
  exact congrArg String.mk h

theorem get_feature_hash_inj (e : Entity) (f g : String)
    (h : e.get_feature_hash f = e.get_feature_hash g) : f = g := by
  unfold Entity.get_feature_hash at h
  have hd := congrArg String.data h
  simp only [String.data_append] at hd
  exact String.data_eq f g
    (List.append_cancel_left (List.append_cancel_right hd))

theorem get_feature_hash_ne_of_name_ne (e1 e2 : Entity) (f : String)
    (hcls : e1.className = e2.className) (hname : e1.name ≠ e2.name) :
    e1.get_feature_hash f ≠ e2.get_feature_hash f := by
  intro h
  unfold Entity.get_feature_hash at h
  rw [hcls] at h
  have hd := congrArg String.data h
  simp only [String.data_append] at hd
  exact hname (String.data_eq _ _ (List.append_cancel_left hd))

/-- Keys whose entity names end in different characters never collide,
whatever the feature names are. -/
theorem get_feature_hash_ne_of_last_char (e1 e2 : Entity) (f g : String)
    (c d : Char) (h1 : e1.name.data.getLast? = some c)
    (h2 : e2.name.data.getLast? = some d) (hcd : c ≠ d) :
    e1.get_feature_hash f ≠ e2.get_feature_hash g := by
  intro h
  unfold Entity.get_feature_hash at h
  have hd := congrArg String.data h
  simp only [String.data_append] at hd
  have hne1 : e1.name.data ≠ [] := by
    intro hnil
    rw [hnil] at h1
    exact Option.noConfusion h1
  have hne2 : e2.name.data ≠ [] := by
    intro hnil
    rw [hnil] at h2
    exact Option.noConfusion h2
  have hlast : (e1.className.data ++ f.data ++ e1.name.data).getLast?
      = (e2.className.data ++ g.data ++ e2.name.data).getLast? := by rw [hd]
  rw [List.getLast?_append_of_ne_nil _ hne1, List.getLast?_append_of_ne_nil _ hne2,
    h1, h2] at hlast
  exact hcd (Option.some.inj hlast)

/-! ## Step equations for the evaluator -/

theorem calc_fv_zero (reg : Registry) (e : Entity) (c : FeatureValueCache)
    (fcn : String) : Entity.calculate_feature_value reg e 0 c fcn = none := rfl

theorem calc_fv_succ (reg : Registry) (e : Entity) (fuel : Nat)
    (c : FeatureValueCache) (fcn : String) :
    Entity.calculate_feature_value reg e (fuel + 1) c fcn =
      if c.containsKey (e.get_feature_hash fcn) then
        some (c.getitem (e.get_feature_hash fcn), c, [])
      else
        match reg fcn with
        | none => none
        | some fd =>
          match calcDepsAux e
              (fun c' d => Entity.calculate_feature_value reg e fuel c' d) c fd.deps with
          | none => none
          | some (c1, tr) =>
            some (fd.calcFn e (fd.deps.map (fun d => c1.getitem (e.get_feature_hash d))),
              c1.setitem (e.get_feature_hash fcn)
                (fd.calcFn e (fd.deps.map (fun d => c1.getitem (e.get_feature_hash d)))),
              tr ++ [fcn]) := rfl

theorem calcDepsAux_nil (e : Entity) (step) (c : FeatureValueCache) :
    calcDepsAux e step c [] = some (c, []) := rfl

theorem calcDepsAux_cons (e : Entity) (step) (c : FeatureValueCache)
    (d : String) (ds : List String) :
    calcDepsAux e step c (d :: ds) =
      match step c d with
      | none => none
      | some (v, c1, t1) =>
        match calcDepsAux e step (c1.setitem (e.get_feature_hash d) v) ds with
        | none => none
        | some (c2, t2) => some (c2, t1 ++ t2) := rfl

/-- A resolution hit: if the feature's key is cached, any positive fuel
returns the cached value, the cache unchanged, and an empty invocation
trace. -/
theorem calc_fv_cached (reg : Registry) (e : Entity) (fuel : Nat)
    (c : FeatureValueCache) (fcn : String)
    (h : c.containsKey (e.get_feature_hash fcn) = true) :
    Entity.calculate_feature_value reg e (fuel + 1) c fcn
      = some (c.getitem (e.get_feature_hash fcn), c, []) := by
  rw [calc_fv_succ, if_pos h]

/-- A successful resolution consumed at least one unit of fuel. -/
theorem calc_fv_some_fuel (reg : Registry) (e : Entity) (fuel : Nat)
    (c : FeatureValueCache) (fcn : String) (r)
    (h : Entity.calculate_feature_value reg e fuel c fcn = some r) :
    ∃ fl, fuel = fl + 1 := by
  cases fuel with
  | zero => exact absurd h (by simp [calc_fv_zero])
  | succ fl => exact ⟨fl, rfl⟩

/-- The cached-branch classification: a successful call on a cache that
already holds the feature's key is exactly the hit triple. -/
theorem calc_fv_some_of_cached (reg : Registry) (e : Entity) (fuel : Nat)
    (c : FeatureValueCache) (fcn : String) (r)
    (hc : c.containsKey (e.get_feature_hash fcn) = true)
    (h : Entity.calculate_feature_value reg e fuel c fcn = some r) :
    r = (c.getitem (e.get_feature_hash fcn), c, []) := by
  obtain ⟨fl, rfl⟩ := calc_fv_some_fuel reg e fuel c fcn r h
  rw [calc_fv_cached reg e fl c fcn hc] at h
  exact (Option.some.inj h).symm

/-! ## Cache-shape invariants of a successful resolution -/

/-- Entries present before a call survive it with their values intact. -/
def CachePres (c c' : FeatureValueCache) : Prop :=
  ∀ k, c.containsKey k = true → c'.containsKey k = true ∧ c'.getitem k = c.getitem k

/-- Every key added to the cache is the key of a feature whose `calculate`
ran (it appears in the trace). -/
def NewKeysFrom (e : Entity) (c c' : FeatureValueCache) (t : List String) : Prop :=
  ∀ k, c'.containsKey k = true →
    c.containsKey k = true ∨ ∃ g ∈ t, k = e.get_feature_hash g

/-- Keys that are not `get_feature_hash e _` keys are untouched: resolving on
entity `e` writes only under `e`'s own hashes. -/
def OnlyEntityKeys (e : Entity) (c c' : FeatureValueCache) : Prop :=
  ∀ k, (∀ g, k ≠ e.get_feature_hash g) →
    c'.containsKey k = c.containsKey k ∧ c'.getitem k = c.getitem k

theorem CachePres.refl (c : FeatureValueCache) : CachePres c c :=
  fun _ h => ⟨h, Eq.refl _⟩

/-- The facts about a single dependency-resolution step that the fold lemma
needs; they are provided by the induction hypothesis on fuel. -/
def StepFacts (e : Entity)
    (step : FeatureValueCache → String → Option (Value × FeatureValueCache × List String)) :
    Prop :=
  (∀ c d v c' t, step c d = some (v, c', t) →
      CachePres c c' ∧ c'.containsKey (e.get_feature_hash d) = true
        ∧ c'.getitem (e.get_feature_hash d) = v
        ∧ NewKeysFrom e c c' t ∧ OnlyEntityKeys e c c')
  ∧ (∀ c d r, c.containsKey (e.get_feature_hash d) = true → step c d = some r →
      r = (c.getitem (e.get_feature_hash d), c, []))

theorem depsAux_invariants (e : Entity) (step) (hs : StepFacts e step) :
    ∀ ds c c2 t2, calcDepsAux e step c ds = some (c2, t2) →
      CachePres c c2 ∧ NewKeysFrom e c c2 t2 ∧ OnlyEntityKeys e c c2 := by
  intro ds
  induction ds with
  | nil =>
    intro c c2 t2 h
    rw [calcDepsAux_nil] at h
    have h1 := Option.some.inj h
    have hc2 : c = c2 := congrArg Prod.fst h1
    have ht2 : ([] : List String) = t2 := congrArg Prod.snd h1
    subst hc2
    subst ht2
    exact ⟨CachePres.refl c, fun k hk => Or.inl hk, fun k _ => ⟨rfl, rfl⟩⟩
  | cons d ds ih =>
    intro c c2 t2 h
    rw [calcDepsAux_cons] at h
    cases hstep : step c d with
    | none => simp only [hstep] at h; exact Option.noConfusion h
    | some r =>
      obtain ⟨v, c1, t1⟩ := r
      simp only [hstep] at h
      cases hrec : calcDepsAux e step (c1.setitem (e.get_feature_hash d) v) ds with
      | none => simp only [hrec] at h; exact Option.noConfusion h
      | some r2 =>
        obtain ⟨c2', t2'⟩ := r2
        simp only [hrec] at h
        have hinj := Option.some.inj h
        have hc2 : c2' = c2 := congrArg Prod.fst hinj
        have ht2 : t1 ++ t2' = t2 := congrArg Prod.snd hinj
        subst hc2
        subst ht2
        obtain ⟨F1, F2⟩ := hs
        obtain ⟨hpres, hself, hval, hnew, honly⟩ := F1 c d v c1 t1 hstep
        -- facts about the explicit dependency write
        have hpres_w : CachePres c (c1.setitem (e.get_feature_hash d) v) := by
          intro k hk
          by_cases hkd : k = e.get_feature_hash d
          · subst hkd
            have hcl := F2 c d (v, c1, t1) hk hstep
            have hv : v = c.getitem (e.get_feature_hash d) :=
              congrArg Prod.fst hcl
            have hc1 : c1 = c := congrArg (fun r => r.2.1) hcl
            subst hc1
            constructor
            · rw [FeatureValueCache.containsKey_setitem]
              simp
            · rw [FeatureValueCache.getitem_setitem_self, hv]
          · obtain ⟨h1, h2⟩ := hpres k hk
            constructor
            · rw [FeatureValueCache.containsKey_setitem, h1, Bool.or_true]
            · rw [FeatureValueCache.getitem_setitem_ne _ _ _ _ hkd, h2]
        have hnew_w : NewKeysFrom e c (c1.setitem (e.get_feature_hash d) v) t1 := by
          intro k hk
          rw [FeatureValueCache.containsKey_setitem] at hk
          rcases Bool.or_eq_true_iff.mp hk with hkd | hk1
          · have hkd' : k = e.get_feature_hash d := beq_iff_eq.mp hkd
            subst hkd'
            exact hnew _ hself
          · exact hnew _ hk1
        have honly_w : OnlyEntityKeys e c (c1.setitem (e.get_feature_hash d) v) := by
          intro k hke
          obtain ⟨h1, h2⟩ := honly k hke
          have hkd : k ≠ e.get_feature_hash d := hke d
          constructor
          · rw [FeatureValueCache.containsKey_setitem,
              beq_eq_false_iff_ne.mpr hkd, Bool.false_or, h1]
          · rw [FeatureValueCache.getitem_setitem_ne _ _ _ _ hkd, h2]
        obtain ⟨rpres, rnew, ronly⟩ := ih (c1.setitem (e.get_feature_hash d) v) c2' t2' hrec
        refine ⟨?_, ?_, ?_⟩
        · intro k hk
          obtain ⟨h1, h2⟩ := hpres_w k hk
          obtain ⟨h3, h4⟩ := rpres k h1
          exact ⟨h3, h4.trans h2⟩
        · intro k hk
          rcases rnew k hk with hk1 | ⟨g, hg, hkg⟩
          · rcases hnew_w k hk1 with hk0 | ⟨g, hg, hkg⟩
            · exact Or.inl hk0
            · exact Or.inr ⟨g, List.mem_append_left _ hg, hkg⟩
          · exact Or.inr ⟨g, List.mem_append_right _ hg, hkg⟩
        · intro k hke
          obtain ⟨h1, h2⟩ := honly_w k hke
          obtain ⟨h3, h4⟩ := ronly k hke
          exact ⟨h3.trans h1, h4.trans h2⟩

/-- The cache-shape invariants of a successful resolution: previously cached
entries survive with their values; the resolved feature ends cached with the
returned value; every new key is the key of a feature that appears in the
invocation trace; and only keys of the resolving entity are written. -/
theorem calc_fv_invariants (reg : Registry) (e : Entity) :
    ∀ fuel c fcn v c' t,
      Entity.calculate_feature_value reg e fuel c fcn = some (v, c', t) →
      CachePres c c' ∧ c'.containsKey (e.get_feature_hash fcn) = true
        ∧ c'.getitem (e.get_feature_hash fcn) = v
        ∧ NewKeysFrom e c c' t ∧ OnlyEntityKeys e c c' := by
  intro fuel
  induction fuel with
  | zero => intro c fcn v c' t h; exact absurd h (by simp [calc_fv_zero])
  | succ fuel ih =>
    intro c fcn v c' t h
    rw [calc_fv_succ] at h
    by_cases hc : c.containsKey (e.get_feature_hash fcn) = true
    · rw [if_pos hc] at h
      have hinj := Option.some.inj h
      have hv : c.getitem (e.get_feature_hash fcn) = v := congrArg Prod.fst hinj
      have hc' : c = c' := congrArg (fun r => r.2.1) hinj
      have ht : ([] : List String) = t := congrArg (fun r => r.2.2) hinj
      subst hc'
      subst ht
      exact ⟨CachePres.refl c, hc, hv, fun k hk => Or.inl hk, fun k _ => ⟨rfl, rfl⟩⟩
    · rw [if_neg hc] at h
      cases hreg : reg fcn with
      | none => simp only [hreg] at h; exact Option.noConfusion h
      | some fd =>
        simp only [hreg] at h
        cases hdeps : calcDepsAux e
            (fun c' d => Entity.calculate_feature_value reg e fuel c' d) c fd.deps with
        | none => simp only [hdeps] at h; exact Option.noConfusion h
        | some r1 =>
          obtain ⟨c1, tr⟩ := r1
          simp only [hdeps] at h
          have hinj := Option.some.inj h
          have hv : fd.calcFn e (fd.deps.map (fun d => c1.getitem (e.get_feature_hash d))) = v :=
            congrArg Prod.fst hinj
          have hc' : c1.setitem (e.get_feature_hash fcn)
              (fd.calcFn e (fd.deps.map (fun d => c1.getitem (e.get_feature_hash d)))) = c' :=
            congrArg (fun r => r.2.1) hinj
          have ht : tr ++ [fcn] = t := congrArg (fun r => r.2.2) hinj
          have hsf : StepFacts e (fun c' d => Entity.calculate_feature_value reg e fuel c' d) := by
            constructor
            · intro c0 d v0 c0' t0 h0
              exact ih c0 d v0 c0' t0 h0
            · intro c0 d r hc0 h0
              exact calc_fv_some_of_cached reg e fuel c0 d r hc0 h0
          obtain ⟨fpres, fnew, fonly⟩ := depsAux_invariants e _ hsf fd.deps c c1 tr hdeps
          subst hc'
          subst ht
          refine ⟨?_, ?_, ?_, ?_, ?_⟩
          · intro k hk
            obtain ⟨h1, h2⟩ := fpres k hk
            have hkf : k ≠ e.get_feature_hash fcn := by
              intro hkf
              rw [hkf] at hk
              exact hc hk
            constructor
            · rw [FeatureValueCache.containsKey_setitem, h1, Bool.or_true]
            · rw [FeatureValueCache.getitem_setitem_ne _ _ _ _ hkf, h2]
          · rw [FeatureValueCache.containsKey_setitem]
            simp
          · rw [FeatureValueCache.getitem_setitem_self, hv]
          · intro k hk
            rw [FeatureValueCache.containsKey_setitem] at hk
            rcases Bool.or_eq_true_iff.mp hk with hkf | hk1
            · exact Or.inr ⟨fcn, List.mem_append_right _ (by simp), beq_iff_eq.mp hkf⟩
            · rcases fnew k hk1 with hk0 | ⟨g, hg, hkg⟩
              · exact Or.inl hk0
              · exact Or.inr ⟨g, List.mem_append_left _ hg, hkg⟩
          · intro k hke
            obtain ⟨h1, h2⟩ := fonly k hke
            have hkf : k ≠ e.get_feature_hash fcn := hke fcn
            constructor
            · rw [FeatureValueCache.containsKey_setitem,
                beq_eq_false_iff_ne.mpr hkf, Bool.false_or, h1]
            · rw [FeatureValueCache.getitem_setitem_ne _ _ _ _ hkf, h2]

/-! ## Divergence on cyclic dependency graphs

`calculate_feature_value` performs no cycle detection.  An infinite
dependency walk through keys none of which are cached is the operational
witness of a resolution that cannot terminate: the evaluator returns `none`
at every fuel bound. -/

/-- An infinite dependency walk starting at `x 0`, every node of which is
uncached in `c`. -/
def InfWalk (reg : Registry) (e : Entity) (c : FeatureValueCache)
    (x : Nat → String) : Prop :=
  ∀ i, c.containsKey (e.get_feature_hash (x i)) = false
    ∧ ∃ fd, reg (x i) = some fd ∧ x (i + 1) ∈ fd.deps

theorem InfWalk.shift {reg : Registry} {e : Entity} {c : FeatureValueCache}
    {x : Nat → String} (h : InfWalk reg e c x) (j : Nat) :
    InfWalk reg e c (fun i => x (i + j)) := by
  intro i
  obtain ⟨h1, fd, h2, h3⟩ := h (i + j)
  refine ⟨h1, fd, h2, ?_⟩
  show x (i + 1 + j) ∈ fd.deps
  have hix : i + 1 + j = i + j + 1 := by omega
  rw [hix]
  exact h3

theorem infwalk_setitem {reg : Registry} {e : Entity} {c : FeatureValueCache}
    {x : Nat → String} (h : InfWalk reg e c x) (d : String) (v : Value)
    (hd : ∀ j, d ≠ x j) :
    InfWalk reg e (c.setitem (e.get_feature_hash d) v) x := by
  intro i
  obtain ⟨h1, hfd⟩ := h i
  refine ⟨?_, hfd⟩
  rw [FeatureValueCache.containsKey_setitem,
    beq_eq_false_iff_ne.mpr
      (fun hh => hd i (get_feature_hash_inj e (x i) d hh).symm),
    Bool.false_or]
  exact h1

theorem depsAux_none_of_walk (reg : Registry) (e : Entity) (step)
    (h1 : ∀ c x, InfWalk reg e c x → step c (x 0) = none)
    (h2 : ∀ c d v c' t x, step c d = some (v, c', t) →
      InfWalk reg e c x → InfWalk reg e c' x) :
    ∀ ds c (x : Nat → String), InfWalk reg e c x → x 0 ∈ ds →
      calcDepsAux e step c ds = none := by
  intro ds
  induction ds with
  | nil => intro c x _ hmem; exact absurd hmem (List.not_mem_nil _)
  | cons d ds ih =>
    intro c x hw hmem
    rw [calcDepsAux_cons]
    cases hstep : step c d with
    | none => rfl
    | some r =>
      obtain ⟨v, c1, t1⟩ := r
      by_cases hdw : ∃ j, d = x j
      · obtain ⟨j, rfl⟩ := hdw
        have hn := h1 c (fun i => x (i + j)) (hw.shift j)
        simp only [Nat.zero_add] at hn
        rw [hstep] at hn
        exact absurd hn (by simp)
      · push_neg at hdw
        have hw1 : InfWalk reg e c1 x := h2 c d v c1 t1 x hstep hw
        have hww := infwalk_setitem hw1 d v hdw
        have hmem' : x 0 ∈ ds := by
          rcases List.mem_cons.mp hmem with hx | hx
          · exact absurd hx.symm (hdw 0)
          · exact hx
        have hrec := ih (c1.setitem (e.get_feature_hash d) v) x hww hmem'
        simp only [hstep, hrec]

theorem depsAux_preserves_walk (reg : Registry) (e : Entity) (step)
    (h1 : ∀ c x, InfWalk reg e c x → step c (x 0) = none)
    (h2 : ∀ c d v c' t x, step c d = some (v, c', t) →
      InfWalk reg e c x → InfWalk reg e c' x) :
    ∀ ds c c2 t2 (x : Nat → String), calcDepsAux e step c ds = some (c2, t2) →
      InfWalk reg e c x → InfWalk reg e c2 x := by
  intro ds
  induction ds with
  | nil =>
    intro c c2 t2 x h hw
    rw [calcDepsAux_nil] at h
    have hc2 : c = c2 := congrArg Prod.fst (Option.some.inj h)
    exact hc2 ▸ hw
  | cons d ds ih =>
    intro c c2 t2 x h hw
    rw [calcDepsAux_cons] at h
    cases hstep : step c d with
    | none => simp only [hstep] at h; exact Option.noConfusion h
    | some r =>
      obtain ⟨v, c1, t1⟩ := r
      simp only [hstep] at h
      by_cases hdw : ∃ j, d = x j
      · obtain ⟨j, rfl⟩ := hdw
        have hn := h1 c (fun i => x (i + j)) (hw.shift j)
        simp only [Nat.zero_add] at hn
        rw [hstep] at hn
        exact absurd hn (by simp)
      · push_neg at hdw
        have hw1 : InfWalk reg e c1 x := h2 c d v c1 t1 x hstep hw
        have hww := infwalk_setitem hw1 d v hdw
        cases hrec : calcDepsAux e step (c1.setitem (e.get_feature_hash d) v) ds with
        | none => simp only [hrec] at h; exact Option.noConfusion h
        | some r2 =>
          obtain ⟨c2', t2'⟩ := r2
          simp only [hrec] at h
          have hc2 : c2' = c2 := congrArg Prod.fst (Option.some.inj h)
          exact hc2 ▸ ih _ c2' t2' x hrec hww

/-- The divergence bundle: with an infinite uncached walk from `x 0`,
resolution of `x 0` returns `none` at every fuel bound; and a successful
resolution of anything leaves every infinite uncached walk uncached. -/
theorem calc_fv_infwalk_bundle (reg : Registry) (e : Entity) : ∀ fuel,
    (∀ c (x : Nat → String), InfWalk reg e c x →
      Entity.calculate_feature_value reg e fuel c (x 0) = none)
    ∧ (∀ c fcn v c' t (x : Nat → String),
      Entity.calculate_feature_value reg e fuel c fcn = some (v, c', t) →
      InfWalk reg e c x → InfWalk reg e c' x) := by
  intro fuel
  induction fuel with
  | zero =>
    constructor
    · intro c x _; exact calc_fv_zero reg e c (x 0)
    · intro c fcn v c' t x h _
      exact absurd h (by simp [calc_fv_zero])
  | succ fuel ih =>
    obtain ⟨ih1, ih2⟩ := ih
    have p1 : ∀ c (x : Nat → String), InfWalk reg e c x →
        Entity.calculate_feature_value reg e (fuel + 1) c (x 0) = none := by
      intro c x hw
      obtain ⟨hx0, fd, hreg, hdep⟩ := hw 0
      rw [calc_fv_succ, if_neg (by rw [hx0]; exact Bool.false_ne_true)]
      simp only [hreg]
      have hnone : calcDepsAux e
          (fun c' d => Entity.calculate_feature_value reg e fuel c' d) c fd.deps
          = none := by
        refine depsAux_none_of_walk reg e _ ih1 ih2 fd.deps c (fun i => x (i + 1))
          (hw.shift 1) ?_
        simp only [Nat.zero_add]
        exact hdep
      simp only [hnone]
    refine ⟨p1, ?_⟩
    intro c fcn v c' t x h hw
    by_cases hfw : ∃ j, fcn = x j
    · obtain ⟨j, rfl⟩ := hfw
      have hn := p1 c (fun i => x (i + j)) (hw.shift j)
      simp only [Nat.zero_add] at hn
      rw [h] at hn
      exact absurd hn (by simp)
    · push_neg at hfw
      rw [calc_fv_succ] at h
      by_cases hc : c.containsKey (e.get_feature_hash fcn) = true
      · rw [if_pos hc] at h
        have hc' : c = c' := congrArg (fun r => r.2.1) (Option.some.inj h)
        exact hc' ▸ hw
      · rw [if_neg hc] at h
        cases hreg : reg fcn with
        | none => simp only [hreg] at h; exact Option.noConfusion h
        | some fd =>
          simp only [hreg] at h
          cases hdeps : calcDepsAux e
              (fun c' d => Entity.calculate_feature_value reg e fuel c' d) c fd.deps with
          | none => simp only [hdeps] at h; exact Option.noConfusion h
          | some r1 =>
            obtain ⟨c1, tr⟩ := r1
            simp only [hdeps] at h
            have hw1 : InfWalk reg e c1 x :=
              depsAux_preserves_walk reg e _ ih1 ih2 fd.deps c c1 tr x hdeps hw
            have hww := infwalk_setitem hw1 fcn
              (fd.calcFn e (fd.deps.map (fun d => c1.getitem (e.get_feature_hash d)))) hfw
            have hc' : c1.setitem (e.get_feature_hash fcn)
                (fd.calcFn e (fd.deps.map (fun d => c1.getitem (e.get_feature_hash d))))
                = c' := congrArg (fun r => r.2.1) (Option.some.inj h)
            exact hc' ▸ hww

/-- Resolution of the start of an infinite uncached dependency walk never
terminates: `none` at every fuel bound. -/
theorem calc_fv_none_of_infwalk (reg : Registry) (e : Entity)
    (c : FeatureValueCache) (x : Nat → String) (fuel : Nat)
    (h : InfWalk reg e c x) :
    Entity.calculate_feature_value reg e fuel c (x 0) = none :=
  (calc_fv_infwalk_bundle reg e fuel).1 c x h

/-! ## Dynamic reachability of computed features -/

/-- A dependency edge of the registry: `b` is declared as a dependency of
`a`. -/
def DepEdge (reg : Registry) (a b : String) : Prop :=
  ∃ fd, reg a = some fd ∧ b ∈ fd.deps

/-- An uncached dependency chain: a path along `DepEdge` all of whose nodes
are uncached in `c`.  Successful computation of a feature `f` during the
resolution of `g` always walks such a chain from `g` to `f`. -/
inductive ReachU (reg : Registry) (e : Entity) (c : FeatureValueCache) :
    String → String → Prop where
  | refl (g : String) (hg : c.containsKey (e.get_feature_hash g) = false) :
      ReachU reg e c g g
  | step (g d b : String) (hg : c.containsKey (e.get_feature_hash g) = false)
      (fd : FeatureDef) (hreg : reg g = some fd) (hd : d ∈ fd.deps)
      (tail : ReachU reg e c d b) : ReachU reg e c g b

theorem ReachU.anti {reg : Registry} {e : Entity} {c0 c1 : FeatureValueCache}
    {a b : String} (h : ReachU reg e c1 a b)
    (hsub : ∀ k, c0.containsKey k = true → c1.containsKey k = true) :
    ReachU reg e c0 a b := by
  induction h with
  | refl g hg =>
    refine ReachU.refl g ?_
    cases hc0 : c0.containsKey (e.get_feature_hash g) with
    | false => rfl
    | true => rw [hsub _ hc0] at hg; exact Bool.noConfusion hg
  | step g d b hg fd hreg hd tail ih =>
    refine ReachU.step g d b ?_ fd hreg hd ih
    cases hc0 : c0.containsKey (e.get_feature_hash g) with
    | false => rfl
    | true => rw [hsub _ hc0] at hg; exact Bool.noConfusion hg

theorem depsAux_trace_reach (reg : Registry) (e : Entity) (step)
    (hstepReach : ∀ c d v c' t, step c d = some (v, c', t) →
      ∀ f ∈ t, ReachU reg e c d f)
    (hstepPres : ∀ c d v c' t, step c d = some (v, c', t) → CachePres c c') :
    ∀ ds c c2 t2, calcDepsAux e step c ds = some (c2, t2) →
      ∀ f ∈ t2, ∃ d ∈ ds, ReachU reg e c d f := by
  intro ds
  induction ds with
  | nil =>
    intro c c2 t2 h f hf
    rw [calcDepsAux_nil] at h
    have ht2 : ([] : List String) = t2 := congrArg Prod.snd (Option.some.inj h)
    rw [← ht2] at hf
    exact absurd hf (List.not_mem_nil f)
  | cons d ds ih =>
    intro c c2 t2 h f hf
    rw [calcDepsAux_cons] at h
    cases hstep : step c d with
    | none => simp only [hstep] at h; exact Option.noConfusion h
    | some r =>
      obtain ⟨v, c1, t1⟩ := r
      simp only [hstep] at h
      cases hrec : calcDepsAux e step (c1.setitem (e.get_feature_hash d) v) ds with
      | none => simp only [hrec] at h; exact Option.noConfusion h
      | some r2 =>
        obtain ⟨c2', t2'⟩ := r2
        simp only [hrec] at h
        have ht2 : t1 ++ t2' = t2 := congrArg Prod.snd (Option.some.inj h)
        rw [← ht2] at hf
        rcases List.mem_append.mp hf with hf1 | hf2
        · exact ⟨d, List.mem_cons_self d ds, hstepReach c d v c1 t1 hstep f hf1⟩
        · obtain ⟨d', hd', hr⟩ := ih (c1.setitem (e.get_feature_hash d) v) c2' t2' hrec f hf2
          refine ⟨d', List.mem_cons_of_mem d hd', hr.anti ?_⟩
          intro k hk
          obtain ⟨h1, _⟩ := hstepPres c d v c1 t1 hstep k hk
          rw [FeatureValueCache.containsKey_setitem, h1, Bool.or_true]

/-- Every feature whose `calculate` runs during a successful resolution of
`fcn` lies at the end of an uncached dependency chain from `fcn`. -/
theorem calc_fv_trace_reach (reg : Registry) (e : Entity) :
    ∀ fuel c fcn v c' t,
      Entity.calculate_feature_value reg e fuel c fcn = some (v, c', t) →
      ∀ f ∈ t, ReachU reg e c fcn f := by
  intro fuel
  induction fuel with
  | zero => intro c fcn v c' t h; exact absurd h (by simp [calc_fv_zero])
  | succ fuel ih =>
    intro c fcn v c' t h f hf
    rw [calc_fv_succ] at h
    by_cases hc : c.containsKey (e.get_feature_hash fcn) = true
    · rw [if_pos hc] at h
      have ht : ([] : List String) = t := congrArg (fun r => r.2.2) (Option.some.inj h)
      rw [← ht] at hf
      exact absurd hf (List.not_mem_nil f)
    · rw [if_neg hc] at h
      have hcf : c.containsKey (e.get_feature_hash fcn) = false :=
        Bool.not_eq_true _ ▸ hc
      cases hreg : reg fcn with
      | none => simp only [hreg] at h; exact Option.noConfusion h
      | some fd =>
        simp only [hreg] at h
        cases hdeps : calcDepsAux e
            (fun c' d => Entity.calculate_feature_value reg e fuel c' d) c fd.deps with
        | none => simp only [hdeps] at h; exact Option.noConfusion h
        | some r1 =>
          obtain ⟨c1, tr⟩ := r1
          simp only [hdeps] at h
          have ht : tr ++ [fcn] = t := congrArg (fun r => r.2.2) (Option.some.inj h)
          rw [← ht] at hf
          rcases List.mem_append.mp hf with hf1 | hf2
          · have haux := depsAux_trace_reach reg e _
              (fun c0 d v0 c0' t0 h0 => ih c0 d v0 c0' t0 h0)
              (fun c0 d v0 c0' t0 h0 => (calc_fv_invariants reg e fuel c0 d v0 c0' t0 h0).1)
              fd.deps c c1 tr hdeps f hf1
            obtain ⟨d, hd, hr⟩ := haux
            exact ReachU.step fcn d f hcf fd hreg hd hr
          · have hffcn : f = fcn := by
              rcases List.mem_singleton.mp hf2 with h'
              exact h'
            rw [hffcn]
            exact ReachU.refl fcn hcf

theorem reachU_chain {reg : Registry} {e : Entity} {c : FeatureValueCache}
    {a b : String} (h : ReachU reg e c a b) :
    ∃ l : List String, l.head? = some a ∧ l.getLast? = some b
      ∧ List.Chain' (DepEdge reg) l
      ∧ ∀ g ∈ l, c.containsKey (e.get_feature_hash g) = false := by
  induction h with
  | refl g hg =>
    refine ⟨[g], rfl, rfl, List.chain'_singleton g, ?_⟩
    intro x hx
    rw [List.mem_singleton.mp hx]
    exact hg
  | step g d b hg fd hreg hd tail ih =>
    obtain ⟨l, hh, hl, hch, hu⟩ := ih
    obtain ⟨l', rfl⟩ : ∃ l', l = d :: l' := by
      cases l with
      | nil => exact absurd hh (by simp)
      | cons x xs =>
        rw [List.head?_cons] at hh
        exact ⟨xs, by rw [Option.some.inj hh]⟩
    refine ⟨g :: d :: l', rfl, ?_, ?_, ?_⟩
    · rw [List.getLast?_cons_cons]
      exact hl
    · rw [List.chain'_cons']
      refine ⟨?_, hch⟩
      intro y hy
      have hyd : d = y := by simpa using hy
      rw [← hyd]
      exact ⟨fd, hreg, hd⟩
    · intro x hx
      rcases List.mem_cons.mp hx with hx0 | hx'
      · rw [hx0]; exact hg
      · exact hu _ hx'

/-- Closing an uncached dependency chain into a cycle yields an infinite
uncached walk: the periodic extension of the chain. -/
theorem infwalk_of_cycle (reg : Registry) (e : Entity) (c : FeatureValueCache)
    (l : List String) (hpos : 0 < l.length)
    (hch : List.Chain' (DepEdge reg) l)
    (hwrap : DepEdge reg (l.get ⟨l.length - 1, by omega⟩) (l.get ⟨0, hpos⟩))
    (hunc : ∀ g ∈ l, c.containsKey (e.get_feature_hash g) = false) :
    InfWalk reg e c (fun i => l.get ⟨i % l.length, Nat.mod_lt _ hpos⟩) := by
  intro i
  constructor
  · exact hunc _ (l.get_mem _ (Nat.mod_lt _ hpos))
  · show ∃ fd, reg (l.get ⟨i % l.length, Nat.mod_lt _ hpos⟩) = some fd
      ∧ l.get ⟨(i + 1) % l.length, Nat.mod_lt _ hpos⟩ ∈ fd.deps
    by_cases hj : i % l.length + 1 < l.length
    · have hmod : (i + 1) % l.length = i % l.length + 1 := by
        have hdm := Nat.div_add_mod i l.length
        have hsplit : i + 1 = l.length * (i / l.length) + (i % l.length + 1) := by omega
        rw [hsplit, Nat.mul_add_mod]
        exact Nat.mod_eq_of_lt hj
      have hadj := (List.chain'_iff_get.mp hch) (i % l.length) (by omega)
      obtain ⟨fd, h1, h2⟩ := hadj
      refine ⟨fd, h1, ?_⟩
      rw [show (⟨(i + 1) % l.length, Nat.mod_lt _ hpos⟩ : Fin l.length)
        = ⟨i % l.length + 1, hj⟩ from Fin.ext hmod]
      exact h2
    · have hj' : i % l.length + 1 = l.length := by
        have := Nat.mod_lt i hpos
        omega
      have hmod : (i + 1) % l.length = 0 := by
        have hdm := Nat.div_add_mod i l.length
        have hsplit : i + 1 = l.length * (i / l.length) + (i % l.length + 1) := by omega
        rw [hsplit, Nat.mul_add_mod, hj', Nat.mod_self]
      obtain ⟨fd, h1, h2⟩ := hwrap
      refine ⟨fd, ?_, ?_⟩
      · rw [show (⟨i % l.length, Nat.mod_lt _ hpos⟩ : Fin l.length)
          = ⟨l.length - 1, by omega⟩ from
            Fin.ext (show i % l.length = l.length - 1 by omega)]
        exact h1
      · rw [show (⟨(i + 1) % l.length, Nat.mod_lt _ hpos⟩ : Fin l.length)
          = ⟨0, hpos⟩ from Fin.ext hmod]
        exact h2

/-- No re-entry: while `fcn`'s own frame is resolving its dependency list,
no dependency's resolution can invoke `fcn`'s `calculate` — doing so would
require an uncached cyclic chain through `fcn`, on which resolution cannot
terminate. -/
theorem depsAux_no_reenter (reg : Registry) (e : Entity) (fuel : Nat)
    (fcn : String) (fd : FeatureDef) (hreg : reg fcn = some fd) :
    ∀ ds c c2 t2, (∀ d ∈ ds, d ∈ fd.deps) →
      c.containsKey (e.get_feature_hash fcn) = false →
      calcDepsAux e (fun c' d => Entity.calculate_feature_value reg e fuel c' d) c ds
        = some (c2, t2) → fcn ∉ t2 := by
  intro ds
  induction ds with
  | nil =>
    intro c c2 t2 _ _ h
    rw [calcDepsAux_nil] at h
    have ht2 : ([] : List String) = t2 := congrArg Prod.snd (Option.some.inj h)
    rw [← ht2]
    exact List.not_mem_nil fcn
  | cons d ds ih =>
    intro c c2 t2 hds hcf h
    rw [calcDepsAux_cons] at h
    cases hstep : Entity.calculate_feature_value reg e fuel c d with
    | none => simp only [hstep] at h; exact Option.noConfusion h
    | some r =>
      obtain ⟨v, c1, t1⟩ := r
      simp only [hstep] at h
      cases hrec : calcDepsAux e
          (fun c' d => Entity.calculate_feature_value reg e fuel c' d)
          (c1.setitem (e.get_feature_hash d) v) ds with
      | none => simp only [hrec] at h; exact Option.noConfusion h
      | some r2 =>
        obtain ⟨c2', t2'⟩ := r2
        simp only [hrec] at h
        have ht2 : t1 ++ t2' = t2 := congrArg Prod.snd (Option.some.inj h)
        have hnot1 : fcn ∉ t1 := by
          intro hf1
          have hr : ReachU reg e c d fcn :=
            calc_fv_trace_reach reg e fuel c d v c1 t1 hstep fcn hf1
          obtain ⟨l, hh, hl, hch, hu⟩ := reachU_chain hr
          have hlpos : 0 < l.length := by
            cases l with
            | nil => exact absurd hh (by simp)
            | cons x xs => simp
          have hne : l ≠ [] := List.length_pos.mp hlpos
          have hhead : l.get ⟨0, hlpos⟩ = d := by
            cases l with
            | nil => exact absurd hh (by simp)
            | cons x xs =>
              rw [List.head?_cons] at hh
              exact Option.some.inj hh
          have hlast : l.get ⟨l.length - 1, by omega⟩ = fcn := by
            have h1 := List.getLast?_eq_getLast l hne
            rw [h1] at hl
            have h2 := Option.some.inj hl
            rw [← h2]
            exact (List.getLast_eq_get l hne).symm
          have hwrap : DepEdge reg (l.get ⟨l.length - 1, by omega⟩)
              (l.get ⟨0, hlpos⟩) := by
            rw [hlast, hhead]
            exact ⟨fd, hreg, hds d (List.mem_cons_self d ds)⟩
          have hwalk := infwalk_of_cycle reg e c l hlpos hch hwrap hu
          have hnone := calc_fv_none_of_infwalk reg e c _ fuel hwalk
          have hnone' : Entity.calculate_feature_value reg e fuel c
              (l.get ⟨0 % l.length, Nat.mod_lt _ hlpos⟩) = none := hnone
          rw [show (⟨0 % l.length, Nat.mod_lt _ hlpos⟩ : Fin l.length) = ⟨0, hlpos⟩
            from Fin.ext (Nat.zero_mod _), hhead, hstep] at hnone'
          exact Option.noConfusion hnone'
        have hdf : d ≠ fcn := by
          intro hdf
          subst hdf
          have hinv := calc_fv_invariants reg e fuel c d v c1 t1 hstep
          rcases hinv.2.2.2.1 _ hinv.2.1 with hin | ⟨g, hg, hkg⟩
          · rw [hcf] at hin
            exact Bool.noConfusion hin
          · have hgd : d = g := get_feature_hash_inj e d g hkg
            rw [← hgd] at hg
            exact hnot1 hg
        have hc1f : c1.containsKey (e.get_feature_hash fcn) = false := by
          cases hx : c1.containsKey (e.get_feature_hash fcn) with
          | false => rfl
          | true =>
            rcases (calc_fv_invariants reg e fuel c d v c1 t1 hstep).2.2.2.1 _ hx with
              hin | ⟨g, hg, hkg⟩
            · rw [hcf] at hin
              exact Bool.noConfusion hin
            · have hgf : fcn = g := get_feature_hash_inj e fcn g hkg
              rw [← hgf] at hg
              exact absurd hg hnot1
        have hcwf : (c1.setitem (e.get_feature_hash d) v).containsKey
            (e.get_feature_hash fcn) = false := by
          rw [FeatureValueCache.containsKey_setitem,
            beq_eq_false_iff_ne.mpr
              (fun hh => hdf (get_feature_hash_inj e fcn d hh).symm),
            Bool.false_or]
          exact hc1f
        have hnot2 : fcn ∉ t2' :=
          ih (c1.setitem (e.get_feature_hash d) v) c2' t2'
            (fun d' hd' => hds d' (List.mem_cons_of_mem d hd')) hcwf hrec
        rw [← ht2]
        intro hmem
        rcases List.mem_append.mp hmem with hx | hx
        · exact hnot1 hx
        · exact hnot2 hx

/-- Across one successful resolution of `fcn`, its `calculate` is invoked at
most once (exactly once when it was uncached, never when it was cached). -/
theorem calc_fv_count_self (reg : Registry) (e : Entity) (fuel : Nat)
    (c : FeatureValueCache) (fcn : String) (v : Value) (c' : FeatureValueCache)
    (t : List String)
    (h : Entity.calculate_feature_value reg e fuel c fcn = some (v, c', t)) :
    t.count fcn ≤ 1 := by
  obtain ⟨fl, rfl⟩ := calc_fv_some_fuel reg e fuel c fcn _ h
  rw [calc_fv_succ] at h
  by_cases hc : c.containsKey (e.get_feature_hash fcn) = true
  · rw [if_pos hc] at h
    have ht : ([] : List String) = t := congrArg (fun r => r.2.2) (Option.some.inj h)
    rw [← ht]
    simp
  · rw [if_neg hc] at h
    have hcf : c.containsKey (e.get_feature_hash fcn) = false :=
      Bool.not_eq_true _ ▸ hc
    cases hreg : reg fcn with
    | none => simp only [hreg] at h; exact Option.noConfusion h
    | some fd =>
      simp only [hreg] at h
      cases hdeps : calcDepsAux e
          (fun c' d => Entity.calculate_feature_value reg e fl c' d) c fd.deps with
      | none => simp only [hdeps] at h; exact Option.noConfusion h
      | some r1 =>
        obtain ⟨c1, tr⟩ := r1
        simp only [hdeps] at h
        have ht : tr ++ [fcn] = t := congrArg (fun r => r.2.2) (Option.some.inj h)
        have hno : fcn ∉ tr :=
          depsAux_no_reenter reg e fl fcn fd hreg fd.deps c c1 tr
            (fun d hd => hd) hcf hdeps
        rw [← ht, List.count_append, List.count_eq_zero.mpr hno]
        simp

/-! ## Termination on acyclic dependency graphs -/

theorem depsAux_isSome (e : Entity) (step) :
    ∀ ds (c : FeatureValueCache), (∀ d ∈ ds, ∀ c0, (step c0 d).isSome = true) →
      (calcDepsAux e step c ds).isSome = true := by
  intro ds
  induction ds with
  | nil => intro c _; rw [calcDepsAux_nil]; rfl
  | cons d ds ih =>
    intro c hall
    rw [calcDepsAux_cons]
    obtain ⟨r, hr⟩ := Option.isSome_iff_exists.mp (hall d (List.mem_cons_self d ds) c)
    obtain ⟨v, c1, t1⟩ := r
    simp only [hr]
    have hrec := ih (c1.setitem (e.get_feature_hash d) v)
      (fun d' hd' c0 => hall d' (List.mem_cons_of_mem d hd') c0)
    obtain ⟨r2, hr2⟩ := Option.isSome_iff_exists.mp hrec
    obtain ⟨c2, t2⟩ := r2
    simp only [hr2]
    rfl

/-- Termination: rank every feature strictly above its dependencies (possible
exactly when the declared dependency graph is acyclic); then resolution
succeeds whenever the fuel exceeds the feature's rank.  Since fuel bounds the
recursion depth, the recursion depth is at most the dependency-chain depth. -/
theorem calc_fv_terminates (reg : Registry) (e : Entity) (rank : String → Nat)
    (hR : ∀ g fd, reg g = some fd → ∀ d ∈ fd.deps,
      (reg d).isSome = true ∧ rank d < rank g) :
    ∀ fuel c fcn, (reg fcn).isSome = true → rank fcn < fuel →
      (Entity.calculate_feature_value reg e fuel c fcn).isSome = true := by
  intro fuel
  induction fuel with
  | zero => intro c fcn _ hrank; exact absurd hrank (by omega)
  | succ fuel ih =>
    intro c fcn hsome hrank
    rw [calc_fv_succ]
    by_cases hc : c.containsKey (e.get_feature_hash fcn) = true
    · rw [if_pos hc]; rfl
    · rw [if_neg hc]
      obtain ⟨fd, hreg⟩ := Option.isSome_iff_exists.mp hsome
      simp only [hreg]
      have hdeps : (calcDepsAux e
          (fun c' d => Entity.calculate_feature_value reg e fuel c' d) c fd.deps).isSome
          = true := by
        refine depsAux_isSome e _ fd.deps c ?_
        intro d hd c0
        obtain ⟨hds, hdr⟩ := hR fcn fd hreg d hd
        exact ih c0 d hds (by omega)
      obtain ⟨r, hr⟩ := Option.isSome_iff_exists.mp hdeps
      obtain ⟨c1, tr⟩ := r
      simp only [hr]
      rfl

/-- Modelled from the spec: the "dependency-chain depth" of a feature — the
number of features on the longest declared dependency path from it.  Computed
with a fuel bound so that it is executable; `none` means the bound was hit
(cyclic graph) or a definition was missing. -/
def specChainDepth (reg : Registry) : Nat → String → Option Nat
  | 0, _ => none
  | fuel + 1, f =>
    match reg f with
    | none => none
    | some fd =>
      match fd.deps.mapM (fun d => specChainDepth reg fuel d) with
      | none => none
      | some ds => some (1 + ds.foldl max 0)

/-! ## Printing (`Entity.__repr__`) and the `Session.dump` hydration loop -/

/-- A decimal digit character. -/
def digitChar (n : Nat) : Char := Char.ofNat (48 + n)

/-- Decimal digits of a natural number (`fuel`-bounded division loop). -/
def natDigitsAux : Nat → Nat → List Char
  | 0, _ => []
  | fuel + 1, n =>
    if n < 10 then [digitChar n]
    else natDigitsAux fuel (n / 10) ++ [digitChar (n % 10)]

/-- Render a natural number in decimal. -/
def natToString (n : Nat) : String := String.mk (natDigitsAux (n + 1) n)

/-- Render an integer in decimal. -/
def intToString (i : Int) : String :=
  if i < 0 then "-" ++ natToString i.natAbs else natToString i.toNat

/-- Python's `str()` of the values this program prints: a whole-valued float
`n.0` prints as `"n.0"`, a string prints as itself.  (Non-integral floats do
not occur in the printed configurations; their rendering here is a
placeholder.) -/
def showValue : Value → String
  | Value.vFloat q =>
    if q.den = 1 then intToString q.num ++ ".0"
    else intToString q.num ++ "/" ++ natToString q.den
  | Value.vStr s => s

/-- `Entity.get_features` (lines 246–252): scan the registered `Feature`
subclasses (in class-creation order `order`) and keep those whose `entity`
attribute is this class. -/
def get_features (reg : Registry) (order : List String) (cls : String) :
    List String :=
  order.filter (fun f =>
    match reg f with
    | some fd => fd.entityClassName == cls
    | none => false)

/-- The loop body of `Entity.__repr__` (lines 206–213): append
`"{feature.name}={value}, "` for each feature, resolving (and caching) it. -/
def reprFold (reg : Registry) (e : Entity) (fuel : Nat) :
    FeatureValueCache → List String → String → Option (String × FeatureValueCache)
  | c, [], acc => some (acc, c)
  | c, f :: fs, acc =>
    match reg f with
    | none => none
    | some fd =>
      match Entity.calculate_feature_value reg e fuel c f with
      | none => none
      | some (v, c1, _) =>
        reprFold reg e fuel c1 fs (acc ++ fd.name ++ "=" ++ showValue v ++ ", ")

/-- `output[:-2]` — drop the final two characters. -/
def strDropLast2 (s : String) : String := String.mk s.data.dropLast.dropLast

/-- `Entity.__repr__` (lines 206–213): build
`"{name}: (" + "f1=v1, " + … `, strip the trailing two characters, close the
parenthesis.  Resolving each feature mutates the shared cache, which is
threaded through. -/
def Entity.reprStr (reg : Registry) (order : List String) (e : Entity)
    (fuel : Nat) (c : FeatureValueCache) : Option (String × FeatureValueCache) :=
  match reprFold reg e fuel c (get_features reg order e.className) (e.name ++ ": (") with
  | none => none
  | some (s, c') => some (strDropLast2 s ++ ")", c')

/-- A row produced by a data source: a mapping from column names to string
values (csv.DictReader yields dicts). -/
abbrev Row := List (String × String)

/-- `row[key]` with `KeyError` modelled as `none`. -/
def rowLookup (r : Row) (k : String) : Option String :=
  (r.find? (fun p => p.1 == k)).map Prod.snd

/-- One `entity_feature_mapping` of a data source (lines 97–105): the feature
class, the column carrying its value, and the column carrying the entity
name. -/
structure EntityFeatureMapping where
  feature : String
  feature_key : String
  name_key : String
  deriving DecidableEq, Repr

/-- `DataSource` (lines 72–131): its name, its registered mappings, and the
row sequence its `yield_data` produces (the CSV reader itself is external
I/O; the parsed rows are taken as given). -/
structure DataSource where
  name : String
  entity_feature_mappings : List EntityFeatureMapping
  rows : List Row

/-- `DataSource.has_entity` (lines 107–113). -/
def DataSource.has_entity (reg : Registry) (src : DataSource) (cls : String) :
    Bool :=
  src.entity_feature_mappings.any (fun m =>
    match reg m.feature with
    | some fd => fd.entityClassName == cls
    | none => false)

/-- `DataSource.entity_name_keys` (lines 118–123) builds a Python `set`; we
keep the first-occurrence order (Python's set iteration order is
unspecified). -/
def DataSource.entity_name_keys (reg : Registry) (src : DataSource)
    (cls : String) : List String :=
  ((src.entity_feature_mappings.filter (fun m =>
    match reg m.feature with
    | some fd => fd.entityClassName == cls
    | none => false)).map (fun m => m.name_key)).eraseDups

/-- `DataSource.entity_feature_mapping_for_name_key` (lines 125–128); note it
does **not** filter by entity type. -/
def DataSource.entity_feature_mapping_for_name_key (src : DataSource)
    (nk : String) : List EntityFeatureMapping :=
  src.entity_feature_mappings.filter (fun m => m.name_key == nk)

/-- The ways a `Session.dump` run can raise: a missing column (`KeyError` on
a row), a value-coercion failure (`value_type` raised), a feature class
missing from `globals()`, the `entity` variable being unbound at the print
(no mapping ran), or a non-terminating/failed feature resolution. -/
inductive PyError where
  | keyError (col : String)
  | coercionError
  | missingDef (cls : String)
  | nameError
  | stuck
  deriving DecidableEq, Repr

/-- The inner mapping loop of `Session.dump` (lines 323–332): for each
mapping keyed on this name column, read the feature's column value, build
the entity and stipulate.  Returns the final cache and the last-constructed
entity (the `entity` variable the following `rich.print` uses). -/
def dumpMappings (reg : Registry) (row : Row) (entityName : String) :
    FeatureValueCache → List EntityFeatureMapping → Option Entity →
    Except PyError (FeatureValueCache × Option Entity)
  | c, [], ent => .ok (c, ent)
  | c, m :: ms, _ =>
    match rowLookup row m.feature_key with
    | none => .error (.keyError m.feature_key)
    | some fv =>
      match reg m.feature with
      | none => .error (.missingDef m.feature)
      | some fd =>
        match Entity.stipulate_feature_value reg ⟨fd.entityClassName, entityName⟩
            c m.feature (Value.vStr fv) with
        | none => .error .coercionError
        | some c' => dumpMappings reg row entityName c' ms
            (some ⟨fd.entityClassName, entityName⟩)

/-- Processing one row for one entity-name column (lines 321–333): read the
entity name, run every mapping keyed on that column, then `rich.print` the
last entity built (triggering full resolution of all its features). -/
def dumpNameKey (reg : Registry) (order : List String) (fuel : Nat)
    (src : DataSource) (c : FeatureValueCache) (row : Row) (nk : String) :
    Except PyError (FeatureValueCache × String) :=
  match rowLookup row nk with
  | none => .error (.keyError nk)
  | some entityName =>
    match dumpMappings reg row entityName c
        (src.entity_feature_mapping_for_name_key nk) none with
    | .error err => .error err
    | .ok (_, none) => .error .nameError
    | .ok (c1, some ent) =>
      match Entity.reprStr reg order ent fuel c1 with
      | none => .error .stuck
      | some (line, c2) => .ok (c2, line)

/-- The name-key loop for one row (line 321). -/
def dumpRowKeys (reg : Registry) (order : List String) (fuel : Nat)
    (src : DataSource) (row : Row) :
    FeatureValueCache → List String → Except PyError (FeatureValueCache × List String)
  | c, [] => .ok (c, [])
  | c, nk :: nks =>
    match dumpNameKey reg order fuel src c row nk with
    | .error err => .error err
    | .ok (c1, line) =>
      match dumpRowKeys reg order fuel src row c1 nks with
      | .error err => .error err
      | .ok (c2, lines) => .ok (c2, line :: lines)

/-- The row loop for one data source (line 320), with `entity_name_keys`
computed once before it (line 319). -/
def dumpRows (reg : Registry) (order : List String) (fuel : Nat)
    (src : DataSource) (nks : List String) :
    FeatureValueCache → List Row → Except PyError (FeatureValueCache × List String)
  | c, [] => .ok (c, [])
  | c, row :: rows =>
    match dumpRowKeys reg order fuel src row c nks with
    | .error err => .error err
    | .ok (c1, lines1) =>
      match dumpRows reg order fuel src nks c1 rows with
      | .error err => .error err
      | .ok (c2, lines2) => .ok (c2, lines1 ++ lines2)

/-- Hydration-and-print of one data source for one entity type (lines
318–333). -/
def dump_source (reg : Registry) (order : List String) (fuel : Nat)
    (cls : String) (src : DataSource) (c : FeatureValueCache) :
    Except PyError (FeatureValueCache × List String) :=
  dumpRows reg order fuel src (src.entity_name_keys reg cls) c src.rows

/-- The data-source loop of `dump` (line 318): only sources that
`has_entity` the current type are visited. -/
def dumpSources (reg : Registry) (order : List String) (fuel : Nat)
    (cls : String) :
    FeatureValueCache → List DataSource → Except PyError (FeatureValueCache × List String)
  | c, [] => .ok (c, [])
  | c, src :: srcs =>
    if src.has_entity reg cls then
      match dump_source reg order fuel cls src c with
      | .error err => .error err
      | .ok (c1, lines1) =>
        match dumpSources reg order fuel cls c1 srcs with
        | .error err => .error err
        | .ok (c2, lines2) => .ok (c2, lines1 ++ lines2)
    else dumpSources reg order fuel cls c srcs

/-- `Session` (lines 272–313): the registered data sources, entity-type class
names and feature class names (in registration order), and the session's
shared value cache. -/
structure Session where
  data_sources : List DataSource
  entities : List String
  features : List String
  cache : FeatureValueCache

/-- The entity-type loop of `Session.dump` (lines 315–333), emitting the
`Entity type: …` header line per type. -/
def dumpEntities (reg : Registry) (order : List String) (fuel : Nat)
    (srcs : List DataSource) :
    FeatureValueCache → List String → Except PyError (FeatureValueCache × List String)
  | c, [] => .ok (c, [])
  | c, cls :: rest =>
    match dumpSources reg order fuel cls c srcs with
    | .error err => .error err
    | .ok (c1, lines1) =>
      match dumpEntities reg order fuel srcs c1 rest with
      | .error err => .error err
      | .ok (c2, lines2) =>
        .ok (c2, ("Entity type: " ++ cls) :: (lines1 ++ lines2))

/-- `Session.dump` (lines 315–333). -/
def Session.dump (reg : Registry) (order : List String) (fuel : Nat)
    (s : Session) : Except PyError (FeatureValueCache × List String) :=
  dumpEntities reg order fuel s.data_sources s.cache s.entities

/-! ## The claims -/

/-- C10: the Value Cache signals absence with an in-band sentinel: lookup of
an absent key returns the string `"__NO_VALUE__"`; a key stored with exactly
that string is indistinguishable from an absent key via lookup (lookup
returns `NO_VALUE` in both cases), and only the containment check
distinguishes them (`in` is `true` for the stored key, `false` for the
absent one). -/
theorem c10_no_value_sentinel :
    (∀ (c : FeatureValueCache) (k : String), c.containsKey k = false →
      c.getitem k = NO_VALUE)
    ∧ (∀ (c : FeatureValueCache) (k : String), c.containsKey k = false →
      (c.setitem k NO_VALUE).getitem k = c.getitem k
        ∧ (c.setitem k NO_VALUE).containsKey k = true ∧ c.containsKey k = false) := by
  constructor
  · exact FeatureValueCache.getitem_of_not_containsKey
  · intro c k h
    refine ⟨?_, ?_, h⟩
    · rw [FeatureValueCache.getitem_setitem_self,
        FeatureValueCache.getitem_of_not_containsKey c k h]
    · rw [FeatureValueCache.containsKey_setitem]
      simp

theorem c10_no_value_sentinel_witness :
    emptyCache.getitem "k" = NO_VALUE
    ∧ ((emptyCache.setitem "k" NO_VALUE).getitem "k" = emptyCache.getitem "k"
      ∧ (emptyCache.setitem "k" NO_VALUE).containsKey "k" = true
      ∧ emptyCache.containsKey "k" = false) :=
  ⟨c10_no_value_sentinel.1 emptyCache "k" (by decide),
   c10_no_value_sentinel.2 emptyCache "k" (by decide)⟩

/-- C6: resolving a feature whose cache key is already present returns the
cached value unchanged and performs no side effects: the cache after the
call is the cache before it, and no compute function is invoked (empty
invocation trace). -/
theorem c6_cached_resolution_pure (reg : Registry) (e : Entity)
    (c : FeatureValueCache) (fcn : String) (fuel : Nat)
    (h : c.containsKey (e.get_feature_hash fcn) = true) :
    Entity.calculate_feature_value reg e (fuel + 1) c fcn
      = some (c.getitem (e.get_feature_hash fcn), c, []) :=
  calc_fv_cached reg e fuel c fcn h

theorem c6_cached_resolution_pure_witness :
    Entity.calculate_feature_value rectReg ⟨"Rectangle", "r1"⟩ 1
        (emptyCache.setitem (Entity.get_feature_hash ⟨"Rectangle", "r1"⟩ "Width")
          (Value.vFloat ⟨3, 1⟩)) "Width"
      = some ((emptyCache.setitem (Entity.get_feature_hash ⟨"Rectangle", "r1"⟩ "Width")
          (Value.vFloat ⟨3, 1⟩)).getitem
            (Entity.get_feature_hash ⟨"Rectangle", "r1"⟩ "Width"),
        emptyCache.setitem (Entity.get_feature_hash ⟨"Rectangle", "r1"⟩ "Width")
          (Value.vFloat ⟨3, 1⟩), []) :=
  c6_cached_resolution_pure rectReg ⟨"Rectangle", "r1"⟩ _ "Width" 0 (by decide)

/-- C2: stipulating a feature's value stores the raw value coerced to the
feature's declared value type, and resolving the feature afterwards returns
exactly that stored value with the compute function never invoked (empty
trace, cache unchanged).  The prior cache is arbitrary — in particular a
previously cached computed value is silently overwritten and subsequent
resolutions return the stipulated value. -/
theorem c2_stipulation_precedence (reg : Registry) (e : Entity)
    (c c' : FeatureValueCache) (fcn : String) (raw : Value) (fuel : Nat)
    (h : Entity.stipulate_feature_value reg e c fcn raw = some c') :
    (∃ fd w, reg fcn = some fd ∧ fd.valueType raw = some w
      ∧ c'.getitem (e.get_feature_hash fcn) = w)
    ∧ Entity.calculate_feature_value reg e (fuel + 1) c' fcn
      = some (c'.getitem (e.get_feature_hash fcn), c', []) := by
  unfold Entity.stipulate_feature_value at h
  cases hreg : reg fcn with
  | none => simp only [hreg] at h; exact Option.noConfusion h
  | some fd =>
    simp only [hreg] at h
    cases hvt : fd.valueType raw with
    | none => simp only [hvt] at h; exact Option.noConfusion h
    | some w =>
      simp only [hvt] at h
      have hc' : c.setitem (e.get_feature_hash fcn) w = c' := Option.some.inj h
      subst hc'
      constructor
      · exact ⟨fd, w, rfl, hvt, FeatureValueCache.getitem_setitem_self c _ w⟩
      · refine calc_fv_cached reg e fuel _ fcn ?_
        rw [FeatureValueCache.containsKey_setitem]
        simp

theorem c2_stipulation_precedence_witness :
    (∃ fd w, rectReg "Width" = some fd ∧ fd.valueType (Value.vStr "3.0") = some w
      ∧ ((emptyCache.setitem (Entity.get_feature_hash ⟨"Rectangle", "r1"⟩ "Width")
          (Value.vFloat ⟨99, 1⟩)).setitem
            (Entity.get_feature_hash ⟨"Rectangle", "r1"⟩ "Width")
            (Value.vFloat ⟨3, 1⟩)).getitem
          (Entity.get_feature_hash ⟨"Rectangle", "r1"⟩ "Width") = w)
    ∧ Entity.calculate_feature_value rectReg ⟨"Rectangle", "r1"⟩ 1
        ((emptyCache.setitem (Entity.get_feature_hash ⟨"Rectangle", "r1"⟩ "Width")
          (Value.vFloat ⟨99, 1⟩)).setitem
            (Entity.get_feature_hash ⟨"Rectangle", "r1"⟩ "Width")
            (Value.vFloat ⟨3, 1⟩)) "Width"
      = some (((emptyCache.setitem (Entity.get_feature_hash ⟨"Rectangle", "r1"⟩ "Width")
          (Value.vFloat ⟨99, 1⟩)).setitem
            (Entity.get_feature_hash ⟨"Rectangle", "r1"⟩ "Width")
            (Value.vFloat ⟨3, 1⟩)).getitem
          (Entity.get_feature_hash ⟨"Rectangle", "r1"⟩ "Width"),
        (emptyCache.setitem (Entity.get_feature_hash ⟨"Rectangle", "r1"⟩ "Width")
          (Value.vFloat ⟨99, 1⟩)).setitem
            (Entity.get_feature_hash ⟨"Rectangle", "r1"⟩ "Width")
            (Value.vFloat ⟨3, 1⟩), []) :=
  c2_stipulation_precedence rectReg ⟨"Rectangle", "r1"⟩
    (emptyCache.setitem (Entity.get_feature_hash ⟨"Rectangle", "r1"⟩ "Width")
      (Value.vFloat ⟨99, 1⟩)) _ "Width" (Value.vStr "3.0") 0 (by decide)

/-- The end-to-end C3 scenario: stipulate `width = 3.0` and `length = 2.0`
on a rectangle, then resolve `area`. -/
def c3resolve : Option (Value × FeatureValueCache × List String) :=
  match Entity.stipulate_feature_value rectReg ⟨"Rectangle", "r"⟩ emptyCache
      "Width" (Value.vFloat ⟨3, 1⟩) with
  | none => none
  | some c1 =>
    match Entity.stipulate_feature_value rectReg ⟨"Rectangle", "r"⟩ c1
        "Length" (Value.vFloat ⟨2, 1⟩) with
    | none => none
    | some c2 => Entity.calculate_feature_value rectReg ⟨"Rectangle", "r"⟩ 5 c2 "Area"

/-- C3: in the rectangle configuration (`area` depends on `width` and
`length` and multiplies them), stipulating `width = 3.0` and
`length = 2.0` and resolving `area` yields `6.0` — and only `Area.calculate`
runs. -/
theorem c3_area_dependency_correctness :
    c3resolve.map (fun r => (r.1, r.2.2))
      = some (Value.vFloat ⟨6, 1⟩, ["Area"]) := by decide

/-- C1: resolving the same feature on the same entity twice returns
identical values, and the feature's compute function is invoked at most once
across both calls: the second resolution performs no invocation at all
(empty trace) and returns the same value on the unchanged cache, and the
two traces together contain the feature at most once. -/
theorem c1_idempotent_resolution (reg : Registry) (e : Entity)
    (fuel fuel' : Nat) (c : FeatureValueCache) (fcn : String) (v : Value)
    (c' : FeatureValueCache) (t : List String)
    (h : Entity.calculate_feature_value reg e fuel c fcn = some (v, c', t)) :
    Entity.calculate_feature_value reg e (fuel' + 1) c' fcn = some (v, c', [])
    ∧ (t ++ ([] : List String)).count fcn ≤ 1 := by
  obtain ⟨_, hself, hval, _, _⟩ := calc_fv_invariants reg e fuel c fcn v c' t h
  constructor
  · rw [calc_fv_cached reg e fuel' c' fcn hself, hval]
  · rw [List.append_nil]
    exact calc_fv_count_self reg e fuel c fcn v c' t h

/-- The cache produced by the first (uncached) resolution of `Area`. -/
def c1cacheAfter : FeatureValueCache :=
  ⟨[("RectangleWidthr1", Value.vFloat ⟨3, 1⟩),
    ("RectangleLengthr1", Value.vFloat ⟨2, 1⟩),
    ("RectangleArear1", Value.vFloat ⟨6, 1⟩)]⟩

theorem c1_idempotent_resolution_witness :
    Entity.calculate_feature_value rectReg ⟨"Rectangle", "r1"⟩ 1 c1cacheAfter "Area"
      = some (Value.vFloat ⟨6, 1⟩, c1cacheAfter, [])
    ∧ ((["Width", "Length", "Area"] ++ ([] : List String)).count "Area") ≤ 1 :=
  c1_idempotent_resolution rectReg ⟨"Rectangle", "r1"⟩ 5 0 emptyCache "Area"
    (Value.vFloat ⟨6, 1⟩) c1cacheAfter ["Width", "Length", "Area"] (by decide)

/-- The diamond-with-a-shortcut registry: `f` depends on `x` and `y`,
`x` on `z`, `y` on `x`.  The longest declared dependency chain from `f` is
`f → y → x → z` (four features), but after `x` is memoized while resolving
`f`'s first dependency, the walk `f → y → x` stops at the cache hit, so the
recursion never goes four frames deep. -/
def reg4 : Registry := fun s =>
  if s = "f" then some ⟨"f", "E", pyFloat, ["x", "y"], fun _ _ => Value.vFloat ⟨0, 1⟩⟩
  else if s = "x" then some ⟨"x", "E", pyFloat, ["z"], fun _ _ => Value.vFloat ⟨0, 1⟩⟩
  else if s = "y" then some ⟨"y", "E", pyFloat, ["x"], fun _ _ => Value.vFloat ⟨0, 1⟩⟩
  else if s = "z" then some ⟨"z", "E", pyFloat, [], fun _ _ => Value.vFloat ⟨0, 1⟩⟩
  else none

/-- C4 counterexample: the dependency-chain depth of `f` in `reg4` is 4, yet
resolution of `f` on an empty cache succeeds with fuel 3 — three nested
frames.  The least sufficient fuel is the recursion depth reached, so the
recursion depth (3) is strictly below the dependency-chain depth (4):
"recursion depth equal to the dependency-chain depth" fails. -/
theorem c4_recursion_depth_counterexample :
    specChainDepth reg4 10 "f" = some 4
    ∧ (Entity.calculate_feature_value reg4 ⟨"E", "a"⟩ 3 emptyCache "f").isSome = true := by
  decide

/-- C4 (amended): (a) termination — when the declared dependency graph is
acyclic, i.e. some rank strictly decreases along dependencies, resolution
succeeds with any fuel above the feature's rank; since fuel bounds the
recursion depth, the recursion depth is **at most** the dependency-chain
depth (memoization can make it strictly smaller).  (b) divergence — a
feature from which an infinite walk of uncached dependencies starts (for
example any feature on a wholly uncached dependency cycle) resolves to
`none` at every fuel bound: unbounded recursion, no cycle detection. -/
theorem c4_termination_and_divergence :
    (∀ (reg : Registry) (e : Entity) (rank : String → Nat),
      (∀ g fd, reg g = some fd → ∀ d ∈ fd.deps,
        (reg d).isSome = true ∧ rank d < rank g) →
      ∀ fuel c fcn, (reg fcn).isSome = true → rank fcn < fuel →
        (Entity.calculate_feature_value reg e fuel c fcn).isSome = true)
    ∧ (∀ (reg : Registry) (e : Entity) (c : FeatureValueCache)
        (x : Nat → String) (fuel : Nat), InfWalk reg e c x →
        Entity.calculate_feature_value reg e fuel c (x 0) = none) :=
  ⟨fun reg e rank hR => calc_fv_terminates reg e rank hR,
   fun reg e c x fuel hw => calc_fv_none_of_infwalk reg e c x fuel hw⟩

/-- A rank for `reg4` decreasing along dependencies. -/
def c4rank : String → Nat := fun s =>
  if s = "f" then 3 else if s = "y" then 2 else if s = "x" then 1 else 0

/-- A registry with a direct self-dependency: `Loop` declares itself as its
own dependency. -/
def selfReg : Registry := fun s =>
  if s = "Loop" then
    some ⟨"loop", "E", pyFloat, ["Loop"], fun _ _ => Value.vFloat ⟨0, 1⟩⟩
  else none

theorem c4_termination_and_divergence_witness :
    (Entity.calculate_feature_value reg4 ⟨"E", "a"⟩ 4 emptyCache "f").isSome = true
    ∧ Entity.calculate_feature_value selfReg ⟨"E", "a"⟩ 7 emptyCache "Loop" = none := by
  constructor
  · refine c4_termination_and_divergence.1 reg4 ⟨"E", "a"⟩ c4rank ?_ 4 emptyCache "f"
      (by decide) (by decide)
    intro g fd hg d hd
    unfold reg4 at hg
    split at hg
    · rename_i hgf
      have hfd := Option.some.inj hg
      rw [← hfd] at hd
      simp only [List.mem_cons, List.not_mem_nil, or_false] at hd
      rcases hd with rfl | rfl <;> subst hgf <;> exact ⟨by decide, by decide⟩
    · split at hg
      · rename_i hgf
        have hfd := Option.some.inj hg
        rw [← hfd] at hd
        simp only [List.mem_singleton] at hd
        subst hd
        subst hgf
        exact ⟨by decide, by decide⟩
      · split at hg
        · rename_i hgf
          have hfd := Option.some.inj hg
          rw [← hfd] at hd
          simp only [List.mem_singleton] at hd
          subst hd
          subst hgf
          exact ⟨by decide, by decide⟩
        · split at hg
          · rename_i hgf
            have hfd := Option.some.inj hg
            rw [← hfd] at hd
            exact absurd hd (List.not_mem_nil d)
          · exact Option.noConfusion hg
  · refine c4_termination_and_divergence.2 selfReg ⟨"E", "a"⟩ emptyCache
      (fun _ => "Loop") 7 ?_
    intro i
    refine ⟨?_, ⟨"loop", "E", pyFloat, ["Loop"], fun _ _ => Value.vFloat ⟨0, 1⟩⟩,
      rfl, ?_⟩
    · show emptyCache.containsKey (Entity.get_feature_hash ⟨"E", "a"⟩ "Loop") = false
      decide
    · show "Loop" ∈ ["Loop"]
      decide

/-- Registry for the cache-isolation counterexample: feature class `A` (no
dependencies, value `1.0`) and feature class `Ab` depending on `A`, both on
entity type `R`. -/
def regC5 : Registry := fun s =>
  if s = "A" then some ⟨"a", "R", pyFloat, [], fun _ _ => Value.vFloat ⟨1, 1⟩⟩
  else if s = "Ab" then some ⟨"ab", "R", pyFloat, ["A"],
    fun _ args =>
      match args with
      | [a] => a
      | _ => Value.vStr "TypeError"⟩
  else none

/-- C5 counterexample: the cache keys concatenate
`className ++ featureClassName ++ entityName` without separators, so the key
of feature `A` on entity `bx` **equals** the key of feature `Ab` on entity
`x`.  Resolving `Ab` on entity `bx` (which caches its dependency `A`)
changes the cached value observed for `Ab` on the distinct same-type entity
`x` from absent (`NO_VALUE`) to `1.0`. -/
theorem c5_cache_isolation_counterexample :
    Entity.get_feature_hash ⟨"R", "bx"⟩ "A" = Entity.get_feature_hash ⟨"R", "x"⟩ "Ab"
    ∧ emptyCache.getitem (Entity.get_feature_hash ⟨"R", "x"⟩ "Ab") = NO_VALUE
    ∧ ((Entity.calculate_feature_value regC5 ⟨"R", "bx"⟩ 5 emptyCache "Ab").map
        (fun r => (r.2.1).getitem (Entity.get_feature_hash ⟨"R", "x"⟩ "Ab")))
      = some (Value.vFloat ⟨1, 1⟩) := by
  decide

/-- C5 (amended): two same-type entities with distinct names maintain
independent cached values for a feature as far as **stipulation** is
concerned — stipulating on one never changes the value or presence observed
for the other.  **Resolution** on one entity writes only keys of the form
`className ++ featureClassName ++ name`, and preserves the other entity's
observed value provided none of those concatenations collides with the
observed key (the collision in the counterexample above is possible because
the components are joined without separators). -/
theorem c5_cache_isolation_amended :
    (∀ (reg : Registry) (e1 e2 : Entity) (c c' : FeatureValueCache)
        (fcn : String) (raw : Value),
      e1.className = e2.className → e1.name ≠ e2.name →
      Entity.stipulate_feature_value reg e1 c fcn raw = some c' →
      c'.getitem (e2.get_feature_hash fcn) = c.getitem (e2.get_feature_hash fcn)
        ∧ c'.containsKey (e2.get_feature_hash fcn)
          = c.containsKey (e2.get_feature_hash fcn))
    ∧ (∀ (reg : Registry) (e1 e2 : Entity) (fuel : Nat) (c : FeatureValueCache)
        (fcn : String) (v : Value) (c' : FeatureValueCache) (t : List String),
      (∀ g, e2.get_feature_hash fcn ≠ e1.get_feature_hash g) →
      Entity.calculate_feature_value reg e1 fuel c fcn = some (v, c', t) →
      c'.getitem (e2.get_feature_hash fcn) = c.getitem (e2.get_feature_hash fcn)
        ∧ c'.containsKey (e2.get_feature_hash fcn)
          = c.containsKey (e2.get_feature_hash fcn)) := by
  constructor
  · intro reg e1 e2 c c' fcn raw hcls hname h
    unfold Entity.stipulate_feature_value at h
    cases hreg : reg fcn with
    | none => simp only [hreg] at h; exact Option.noConfusion h
    | some fd =>
      simp only [hreg] at h
      cases hvt : fd.valueType raw with
      | none => simp only [hvt] at h; exact Option.noConfusion h
      | some w =>
        simp only [hvt] at h
        have hc' : c.setitem (e1.get_feature_hash fcn) w = c' := Option.some.inj h
        subst hc'
        have hne : e2.get_feature_hash fcn ≠ e1.get_feature_hash fcn :=
          get_feature_hash_ne_of_name_ne e2 e1 fcn hcls.symm (fun hh => hname hh.symm)
        constructor
        · exact FeatureValueCache.getitem_setitem_ne c _ w _ hne
        · rw [FeatureValueCache.containsKey_setitem, beq_eq_false_iff_ne.mpr hne,
            Bool.false_or]
  · intro reg e1 e2 fuel c fcn v c' t hnc h
    obtain ⟨hck, hgi⟩ := (calc_fv_invariants reg e1 fuel c fcn v c' t h).2.2.2.2
      (e2.get_feature_hash fcn) hnc
    exact ⟨hgi, hck⟩

/-- A one-feature registry used by the cache-isolation witness. -/
def regF : Registry := fun s =>
  if s = "F" then some ⟨"f", "R", pyFloat, [], fun _ _ => Value.vFloat ⟨1, 1⟩⟩
  else none

/-- The cache after stipulating (or computing) `F = 1.0` on entity `u`. -/
def c5wCache : FeatureValueCache :=
  emptyCache.setitem (Entity.get_feature_hash ⟨"R", "u"⟩ "F") (Value.vFloat ⟨1, 1⟩)

theorem c5_cache_isolation_amended_witness :
    (c5wCache.getitem (Entity.get_feature_hash ⟨"R", "v"⟩ "F")
        = emptyCache.getitem (Entity.get_feature_hash ⟨"R", "v"⟩ "F")
      ∧ c5wCache.containsKey (Entity.get_feature_hash ⟨"R", "v"⟩ "F")
        = emptyCache.containsKey (Entity.get_feature_hash ⟨"R", "v"⟩ "F"))
    ∧ (c5wCache.getitem (Entity.get_feature_hash ⟨"R", "v"⟩ "F")
        = emptyCache.getitem (Entity.get_feature_hash ⟨"R", "v"⟩ "F")
      ∧ c5wCache.containsKey (Entity.get_feature_hash ⟨"R", "v"⟩ "F")
        = emptyCache.containsKey (Entity.get_feature_hash ⟨"R", "v"⟩ "F")) := by
  constructor
  · exact c5_cache_isolation_amended.1 regF ⟨"R", "u"⟩ ⟨"R", "v"⟩ emptyCache c5wCache
      "F" (Value.vStr "1.0") rfl (by decide) (by decide)
  · exact c5_cache_isolation_amended.2 regF ⟨"R", "u"⟩ ⟨"R", "v"⟩ 1 emptyCache "F"
      (Value.vFloat ⟨1, 1⟩) c5wCache ["F"]
      (fun g => get_feature_hash_ne_of_last_char ⟨"R", "v"⟩ ⟨"R", "u"⟩ "F" g 'v' 'u'
        (by decide) (by decide) (by decide))
      (by decide)

/-! ## The shape of `Entity.__repr__` output -/

theorem str_append_assoc (a b c : String) : (a ++ b) ++ c = a ++ (b ++ c) :=
  String.data_eq _ _ (by simp [String.data_append])

theorem str_append_empty (a : String) : a ++ "" = a :=
  String.data_eq _ _ (by simp [String.data_append])

theorem strDropLast2_append (s : String) : strDropLast2 (s ++ ", ") = s := by
  unfold strDropLast2
  have hd : (s ++ ", ").data = (s.data ++ [',']) ++ [' '] := by
    rw [String.data_append]
    simp
  rw [hd, List.dropLast_concat, List.dropLast_concat]

/-- The display name of a feature class (its `name` attribute). -/
def displayName (reg : Registry) (f : String) : String :=
  match reg f with
  | some fd => fd.name
  | none => ""

/-- `", "`-separated concatenation, as in `f1=v1, f2=v2, f3=v3`. -/
def commaJoin : List String → String
  | [] => ""
  | [p] => p
  | p :: q :: ps => p ++ ", " ++ commaJoin (q :: ps)

/-- Each part followed by `", "`, as `__repr__`'s loop accumulates them. -/
def partsWithSep : List String → String
  | [] => ""
  | p :: ps => p ++ ", " ++ partsWithSep ps

theorem partsWithSep_eq_commaJoin (acc : String) :
    ∀ parts : List String, parts ≠ [] →
      acc ++ partsWithSep parts = (acc ++ commaJoin parts) ++ ", " := by
  intro parts
  induction parts generalizing acc with
  | nil => intro h; exact absurd rfl h
  | cons p ps ih =>
    intro _
    cases ps with
    | nil =>
      show acc ++ (p ++ ", " ++ "") = (acc ++ p) ++ ", "
      rw [str_append_empty]
      simp only [← str_append_assoc]
    | cons q qs =>
      show acc ++ (p ++ ", " ++ partsWithSep (q :: qs))
        = (acc ++ (p ++ ", " ++ commaJoin (q :: qs))) ++ ", "
      have hih := ih (acc ++ (p ++ ", ")) (by simp)
      simp only [← str_append_assoc] at hih ⊢
      exact hih

/-- The `__repr__` loop: accumulates one `"{name}={value}, "` chunk per
feature, resolving each against the threaded cache, and its writes obey the
resolution invariants. -/
theorem reprFold_shape (reg : Registry) (e : Entity) (fuel : Nat) :
    ∀ fs c acc s c', reprFold reg e fuel c fs acc = some (s, c') →
      (∃ vals : List String, vals.length = fs.length
        ∧ s = acc ++ partsWithSep
            (List.zipWith (fun f v => displayName reg f ++ "=" ++ v) fs vals))
      ∧ CachePres c c' ∧ OnlyEntityKeys e c c'
      ∧ ∀ f ∈ fs, c'.containsKey (e.get_feature_hash f) = true := by
  intro fs
  induction fs with
  | nil =>
    intro c acc s c' h
    have h1 := Option.some.inj h
    have hs : acc = s := congrArg Prod.fst h1
    have hc : c = c' := congrArg Prod.snd h1
    subst hs
    subst hc
    refine ⟨⟨[], rfl, (str_append_empty acc).symm⟩, CachePres.refl c,
      fun k _ => ⟨rfl, rfl⟩, fun f hf => absurd hf (List.not_mem_nil f)⟩
  | cons f fs ih =>
    intro c acc s c' h
    rw [reprFold] at h
    cases hreg : reg f with
    | none => simp only [hreg] at h; exact Option.noConfusion h
    | some fd =>
      simp only [hreg] at h
      cases hcv : Entity.calculate_feature_value reg e fuel c f with
      | none => simp only [hcv] at h; exact Option.noConfusion h
      | some r =>
        obtain ⟨v, c1, t1⟩ := r
        simp only [hcv] at h
        obtain ⟨⟨vals, hlen, hshape⟩, hpres, honly, hcached⟩ :=
          ih c1 (acc ++ fd.name ++ "=" ++ showValue v ++ ", ") s c' h
        obtain ⟨hpres1, hself1, _, _, honly1⟩ :=
          calc_fv_invariants reg e fuel c f v c1 t1 hcv
        refine ⟨⟨showValue v :: vals, by simp [hlen], ?_⟩, ?_, ?_, ?_⟩
        · rw [hshape]
          have hdn : displayName reg f = fd.name := by rw [displayName, hreg]
          simp only [List.zipWith_cons_cons, partsWithSep, hdn]
          simp only [← str_append_assoc]
        · intro k hk
          obtain ⟨h1, h2⟩ := hpres1 k hk
          obtain ⟨h3, h4⟩ := hpres k h1
          exact ⟨h3, h4.trans h2⟩
        · intro k hke
          obtain ⟨h1, h2⟩ := honly1 k hke
          obtain ⟨h3, h4⟩ := honly k hke
          exact ⟨h3.trans h1, h4.trans h2⟩
        · intro g hg
          rcases List.mem_cons.mp hg with hg0 | hg'
          · subst hg0
            exact (hpres _ hself1).1
          · exact hcached g hg'

/-- C9 (amended): for every entity whose type has at least one registered
feature, materializing it (`__repr__`) produces one line of text of the form
`name: (feature1=value1, feature2=value2, …)`, listing every feature defined
for the entity's type in registration order (`get_features` filters the
class-creation order), and fully resolving — hence caching — every listed
feature as a side effect.  (An entity type with zero features breaks the
form; see the counterexample.) -/
theorem c9_materialization (reg : Registry) (order : List String) (e : Entity)
    (fuel : Nat) (c : FeatureValueCache) (s : String) (c' : FeatureValueCache)
    (hne : get_features reg order e.className ≠ [])
    (h : Entity.reprStr reg order e fuel c = some (s, c')) :
    (∃ vals : List String,
      vals.length = (get_features reg order e.className).length
      ∧ s = e.name ++ ": ("
          ++ commaJoin (List.zipWith (fun f v => displayName reg f ++ "=" ++ v)
              (get_features reg order e.className) vals)
          ++ ")")
    ∧ ∀ f ∈ get_features reg order e.className,
        c'.containsKey (e.get_feature_hash f) = true := by
  unfold Entity.reprStr at h
  cases hfold : reprFold reg e fuel c (get_features reg order e.className)
      (e.name ++ ": (") with
  | none => simp only [hfold] at h; exact Option.noConfusion h
  | some r =>
    obtain ⟨s0, c0⟩ := r
    simp only [hfold] at h
    have hs : strDropLast2 s0 ++ ")" = s := congrArg Prod.fst (Option.some.inj h)
    have hc : c0 = c' := congrArg Prod.snd (Option.some.inj h)
    subst hc
    obtain ⟨⟨vals, hlen, hshape⟩, _, _, hcached⟩ :=
      reprFold_shape reg e fuel _ c _ s0 c0 hfold
    refine ⟨⟨vals, hlen, ?_⟩, hcached⟩
    have hparts : List.zipWith (fun f v => displayName reg f ++ "=" ++ v)
        (get_features reg order e.className) vals ≠ [] := by
      intro hnil
      have hz := congrArg List.length hnil
      rw [List.length_zipWith, hlen] at hz
      simp only [Nat.min_self, List.length_nil] at hz
      exact hne (List.length_eq_zero.mp hz)
    rw [← hs, hshape, partsWithSep_eq_commaJoin _ _ hparts, strDropLast2_append]

/-- C9 counterexample: an entity of a type with no registered features prints
`x:)`, not the claimed form `name: (…)` — the code strips two characters from
`"x: ("` before closing the parenthesis. -/
theorem c9_zero_feature_counterexample :
    Entity.reprStr rectReg [] ⟨"Rectangle", "x"⟩ 1 emptyCache
      = some ("x:)", emptyCache)
    ∧ "x:)" ≠ "x: ()" := by decide

theorem c9_materialization_witness :
    (∃ vals : List String,
      vals.length = (get_features rectReg ["Width", "Length", "Area"] "Rectangle").length
      ∧ "r1: (width=3.0, length=2.0, area=6.0)" = "r1" ++ ": ("
          ++ commaJoin (List.zipWith (fun f v => displayName rectReg f ++ "=" ++ v)
              (get_features rectReg ["Width", "Length", "Area"] "Rectangle") vals)
          ++ ")")
    ∧ ∀ f ∈ get_features rectReg ["Width", "Length", "Area"] "Rectangle",
        c1cacheAfter.containsKey (Entity.get_feature_hash ⟨"Rectangle", "r1"⟩ f) = true :=
  c9_materialization rectReg ["Width", "Length", "Area"] ⟨"Rectangle", "r1"⟩ 5
    emptyCache "r1: (width=3.0, length=2.0, area=6.0)" c1cacheAfter
    (by decide) (by decide)

/-! ## Missing columns during hydration -/

theorem dumpMappings_nil (reg : Registry) (row : Row) (nm : String)
    (c : FeatureValueCache) (ent : Option Entity) :
    dumpMappings reg row nm c [] ent = .ok (c, ent) := rfl

theorem dumpMappings_cons (reg : Registry) (row : Row) (nm : String)
    (c : FeatureValueCache) (m : EntityFeatureMapping)
    (ms : List EntityFeatureMapping) (ent : Option Entity) :
    dumpMappings reg row nm c (m :: ms) ent =
      match rowLookup row m.feature_key with
      | none => .error (.keyError m.feature_key)
      | some fv =>
        match reg m.feature with
        | none => .error (.missingDef m.feature)
        | some fd =>
          match Entity.stipulate_feature_value reg ⟨fd.entityClassName, nm⟩
              c m.feature (Value.vStr fv) with
          | none => .error .coercionError
          | some c' => dumpMappings reg row nm c' ms
              (some ⟨fd.entityClassName, nm⟩) := rfl

theorem dumpMappings_error (reg : Registry) (row : Row) (entityName : String)
    (m : EntityFeatureMapping) (post : List EntityFeatureMapping)
    (hmk : rowLookup row m.feature_key = none) :
    ∀ (pre : List EntityFeatureMapping) (c : FeatureValueCache) (ent : Option Entity),
      (∀ m' ∈ pre, ∃ fv fd w, rowLookup row m'.feature_key = some fv
        ∧ reg m'.feature = some fd ∧ fd.valueType (Value.vStr fv) = some w) →
      dumpMappings reg row entityName c (pre ++ m :: post) ent
        = .error (.keyError m.feature_key) := by
  intro pre
  induction pre with
  | nil =>
    intro c ent _
    rw [List.nil_append, dumpMappings_cons]
    simp only [hmk]
  | cons m' pre ih =>
    intro c ent hall
    obtain ⟨fv, fd, w, h1, h2, h3⟩ := hall m' (List.mem_cons_self m' pre)
    rw [List.cons_append, dumpMappings_cons]
    simp only [h1, h2]
    have hst : Entity.stipulate_feature_value reg ⟨fd.entityClassName, entityName⟩
        c m'.feature (Value.vStr fv)
        = some (c.setitem
            (Entity.get_feature_hash ⟨fd.entityClassName, entityName⟩ m'.feature) w) := by
      unfold Entity.stipulate_feature_value
      simp only [h2, h3]
    simp only [hst]
    exact ih _ _ (fun m'' hm'' => hall m'' (List.mem_cons_of_mem m' hm''))

/-- C8: during hydration, a row that lacks a column referenced by a mapping
fails with a missing-column error (`KeyError` on that column) rather than
silently producing an absent or null feature value: if the entity-name
column is missing the row fails on it at once, and if a mapped feature
column is missing (all mappings before it being well-formed for this row)
the row fails on that feature column. -/
theorem c8_missing_column (reg : Registry) (order : List String) (fuel : Nat)
    (src : DataSource) (c : FeatureValueCache) (row : Row) (nk : String) :
    (rowLookup row nk = none →
      dumpNameKey reg order fuel src c row nk = .error (.keyError nk))
    ∧ (∀ entityName (pre : List EntityFeatureMapping) (m : EntityFeatureMapping)
        (post : List EntityFeatureMapping),
      rowLookup row nk = some entityName →
      src.entity_feature_mapping_for_name_key nk = pre ++ m :: post →
      (∀ m' ∈ pre, ∃ fv fd w, rowLookup row m'.feature_key = some fv
        ∧ reg m'.feature = some fd ∧ fd.valueType (Value.vStr fv) = some w) →
      rowLookup row m.feature_key = none →
      dumpNameKey reg order fuel src c row nk
        = .error (.keyError m.feature_key)) := by
  constructor
  · intro h
    unfold dumpNameKey
    simp only [h]
  · intro entityName pre m post hlook hmaps hpre hmk
    unfold dumpNameKey
    simp only [hlook, hmaps,
      dumpMappings_error reg row entityName m post hmk pre c none hpre]

/-- A data source with a single mapping, used by the missing-column
witness. -/
def src8 : DataSource := ⟨"s8", [⟨"F", "fcol", "id"⟩], []⟩

theorem c8_missing_column_witness :
    dumpNameKey regF [] 1 src8 emptyCache [("w", "1")] "id"
      = .error (.keyError "id")
    ∧ dumpNameKey regF [] 1 src8 emptyCache [("id", "r1")] "id"
      = .error (.keyError "fcol") :=
  ⟨(c8_missing_column regF [] 1 src8 emptyCache [("w", "1")] "id").1 (by decide),
   (c8_missing_column regF [] 1 src8 emptyCache [("id", "r1")] "id").2
     "r1" [] ⟨"F", "fcol", "id"⟩ [] (by decide) (by decide)
     (fun m' hm' => absurd hm' (List.not_mem_nil m')) (by decide)⟩

/-! ## Hydration completeness -/

theorem reprStr_pres (reg : Registry) (order : List String) (e : Entity)
    (fuel : Nat) (c : FeatureValueCache) (s : String) (c' : FeatureValueCache)
    (h : Entity.reprStr reg order e fuel c = some (s, c')) :
    CachePres c c' ∧ OnlyEntityKeys e c c' := by
  unfold Entity.reprStr at h
  cases hfold : reprFold reg e fuel c (get_features reg order e.className)
      (e.name ++ ": (") with
  | none => simp only [hfold] at h; exact Option.noConfusion h
  | some r =>
    obtain ⟨s0, c0⟩ := r
    simp only [hfold] at h
    have hc : c0 = c' := congrArg Prod.snd (Option.some.inj h)
    subst hc
    obtain ⟨_, hpres, honly, _⟩ := reprFold_shape reg e fuel _ c _ s0 c0 hfold
    exact ⟨hpres, honly⟩

theorem dumpRowKeys_nil (reg : Registry) (order : List String) (fuel : Nat)
    (src : DataSource) (row : Row) (c : FeatureValueCache) :
    dumpRowKeys reg order fuel src row c [] = .ok (c, []) := rfl

theorem dumpRowKeys_cons (reg : Registry) (order : List String) (fuel : Nat)
    (src : DataSource) (row : Row) (c : FeatureValueCache) (nk : String)
    (nks : List String) :
    dumpRowKeys reg order fuel src row c (nk :: nks) =
      match dumpNameKey reg order fuel src c row nk with
      | .error err => .error err
      | .ok (c1, line) =>
        match dumpRowKeys reg order fuel src row c1 nks with
        | .error err => .error err
        | .ok (c2, lines) => .ok (c2, line :: lines) := rfl

theorem dumpRows_nil (reg : Registry) (order : List String) (fuel : Nat)
    (src : DataSource) (nks : List String) (c : FeatureValueCache) :
    dumpRows reg order fuel src nks c [] = .ok (c, []) := rfl

theorem dumpRows_cons (reg : Registry) (order : List String) (fuel : Nat)
    (src : DataSource) (nks : List String) (c : FeatureValueCache) (row : Row)
    (rows : List Row) :
    dumpRows reg order fuel src nks c (row :: rows) =
      match dumpRowKeys reg order fuel src row c nks with
      | .error err => .error err
      | .ok (c1, lines1) =>
        match dumpRows reg order fuel src nks c1 rows with
        | .error err => .error err
        | .ok (c2, lines2) => .ok (c2, lines1 ++ lines2) := rfl

/-- Decomposition of one successfully hydrated row for a single-mapping
source: the name and feature columns were present, the raw value coerced,
the coerced value sits under the entity's feature key afterwards, and all
other entities' keys are untouched. -/
theorem c7_row_ok (reg : Registry) (order : List String) (fuel : Nat)
    (src : DataSource) (m : EntityFeatureMapping) (fd : FeatureDef)
    (hm : src.entity_feature_mappings = [m])
    (hfd : reg m.feature = some fd)
    (row : Row) (c c1 : FeatureValueCache) (lines : List String)
    (h : dumpRowKeys reg order fuel src row c [m.name_key] = .ok (c1, lines)) :
    ∃ nm vl w, rowLookup row m.name_key = some nm
      ∧ rowLookup row m.feature_key = some vl
      ∧ fd.valueType (Value.vStr vl) = some w
      ∧ c1.getitem (Entity.get_feature_hash ⟨fd.entityClassName, nm⟩ m.feature) = w
      ∧ c1.containsKey (Entity.get_feature_hash ⟨fd.entityClassName, nm⟩ m.feature) = true
      ∧ ∀ k, (∀ g, k ≠ Entity.get_feature_hash ⟨fd.entityClassName, nm⟩ g) →
          c1.getitem k = c.getitem k ∧ c1.containsKey k = c.containsKey k := by
  have hmap : src.entity_feature_mapping_for_name_key m.name_key = [m] := by
    unfold DataSource.entity_feature_mapping_for_name_key
    rw [hm]
    simp
  rw [dumpRowKeys_cons] at h
  cases hdk : dumpNameKey reg order fuel src c row m.name_key with
  | error err => simp only [hdk] at h; exact Except.noConfusion h
  | ok r0 =>
    obtain ⟨cA, line⟩ := r0
    simp only [hdk, dumpRowKeys_nil] at h
    have hc1 : cA = c1 := congrArg Prod.fst (Except.ok.inj h)
    subst hc1
    unfold dumpNameKey at hdk
    cases hlook : rowLookup row m.name_key with
    | none => simp only [hlook] at hdk; exact Except.noConfusion hdk
    | some nm =>
      simp only [hlook, hmap] at hdk
      rw [dumpMappings_cons] at hdk
      cases hfk : rowLookup row m.feature_key with
      | none => simp only [hfk] at hdk; exact Except.noConfusion hdk
      | some vl =>
        simp only [hfk, hfd] at hdk
        cases hvt : fd.valueType (Value.vStr vl) with
        | none =>
          have hst : Entity.stipulate_feature_value reg ⟨fd.entityClassName, nm⟩
              c m.feature (Value.vStr vl) = none := by
            unfold Entity.stipulate_feature_value
            simp only [hfd, hvt]
          simp only [hst] at hdk
          exact Except.noConfusion hdk
        | some w =>
          have hst : Entity.stipulate_feature_value reg ⟨fd.entityClassName, nm⟩
              c m.feature (Value.vStr vl)
              = some (c.setitem
                  (Entity.get_feature_hash ⟨fd.entityClassName, nm⟩ m.feature) w) := by
            unfold Entity.stipulate_feature_value
            simp only [hfd, hvt]
          simp only [hst, dumpMappings_nil] at hdk
          cases hrep : Entity.reprStr reg order ⟨fd.entityClassName, nm⟩ fuel
              (c.setitem (Entity.get_feature_hash ⟨fd.entityClassName, nm⟩ m.feature) w) with
          | none => simp only [hrep] at hdk; exact Except.noConfusion hdk
          | some r1 =>
            obtain ⟨lineA, c2⟩ := r1
            simp only [hrep] at hdk
            have hc2 : c2 = cA := congrArg Prod.fst (Except.ok.inj hdk)
            subst hc2
            obtain ⟨hpres, honly⟩ := reprStr_pres reg order _ fuel _ lineA _ hrep
            have hkey : (c.setitem
                (Entity.get_feature_hash ⟨fd.entityClassName, nm⟩ m.feature) w).containsKey
                (Entity.get_feature_hash ⟨fd.entityClassName, nm⟩ m.feature) = true := by
              rw [FeatureValueCache.containsKey_setitem]
              simp
            obtain ⟨hck, hgi⟩ := hpres _ hkey
            refine ⟨nm, vl, w, rfl, rfl, hvt, ?_, hck, ?_⟩
            · rw [hgi, FeatureValueCache.getitem_setitem_self]
            · intro k hk
              obtain ⟨h1, h2⟩ := honly k hk
              have hkm : k ≠ Entity.get_feature_hash ⟨fd.entityClassName, nm⟩ m.feature :=
                hk m.feature
              constructor
              · rw [h2, FeatureValueCache.getitem_setitem_ne _ _ _ _ hkm]
              · rw [h1, FeatureValueCache.containsKey_setitem,
                  beq_eq_false_iff_ne.mpr hkm, Bool.false_or]

/-- Later rows do not disturb a key that collides with no key of any entity
they name. -/
theorem c7_rows_preserve (reg : Registry) (order : List String) (fuel : Nat)
    (src : DataSource) (m : EntityFeatureMapping) (fd : FeatureDef)
    (hm : src.entity_feature_mappings = [m])
    (hfd : reg m.feature = some fd) :
    ∀ rows (c c2 : FeatureValueCache) (lines : List String),
      dumpRows reg order fuel src [m.name_key] c rows = .ok (c2, lines) →
      ∀ k, (∀ r' ∈ rows, ∀ n', rowLookup r' m.name_key = some n' →
        ∀ g, k ≠ Entity.get_feature_hash ⟨fd.entityClassName, n'⟩ g) →
      c2.getitem k = c.getitem k ∧ c2.containsKey k = c.containsKey k := by
  intro rows
  induction rows with
  | nil =>
    intro c c2 lines h k _
    rw [dumpRows_nil] at h
    have hc : c = c2 := congrArg Prod.fst (Except.ok.inj h)
    subst hc
    exact ⟨rfl, rfl⟩
  | cons r0 rows ih =>
    intro c c2 lines h k hall
    rw [dumpRows_cons] at h
    cases hrk : dumpRowKeys reg order fuel src r0 c [m.name_key] with
    | error err => simp only [hrk] at h; exact Except.noConfusion h
    | ok rA =>
      obtain ⟨cA, linesA⟩ := rA
      simp only [hrk] at h
      cases hrest : dumpRows reg order fuel src [m.name_key] cA rows with
      | error err => simp only [hrest] at h; exact Except.noConfusion h
      | ok rB =>
        obtain ⟨cB, linesB⟩ := rB
        simp only [hrest] at h
        have hc2 : cB = c2 := congrArg Prod.fst (Except.ok.inj h)
        subst hc2
        obtain ⟨nm0, vl0, w0, hlook0, _, _, _, _, hkeep⟩ :=
          c7_row_ok reg order fuel src m fd hm hfd r0 c cA linesA hrk
        obtain ⟨h1, h2⟩ := hkeep k
          (hall r0 (List.mem_cons_self r0 rows) nm0 hlook0)
        obtain ⟨h3, h4⟩ := ih cA cB linesB hrest k
          (fun r' hr' => hall r' (List.mem_cons_of_mem r0 hr'))
        exact ⟨h3.trans h1, h4.trans h2⟩

/-- The per-row conclusion over a whole single-mapping hydration run. -/
theorem c7_rows_main (reg : Registry) (order : List String) (fuel : Nat)
    (src : DataSource) (m : EntityFeatureMapping) (fd : FeatureDef)
    (hm : src.entity_feature_mappings = [m])
    (hfd : reg m.feature = some fd) :
    ∀ rows (c c2 : FeatureValueCache) (lines : List String),
      dumpRows reg order fuel src [m.name_key] c rows = .ok (c2, lines) →
      rows.Pairwise (fun r1 r2 => ∀ n1 n2,
        rowLookup r1 m.name_key = some n1 → rowLookup r2 m.name_key = some n2 →
        ∀ g, Entity.get_feature_hash ⟨fd.entityClassName, n2⟩ g
          ≠ Entity.get_feature_hash ⟨fd.entityClassName, n1⟩ m.feature) →
      ∀ r ∈ rows, ∀ nm vl w, rowLookup r m.name_key = some nm →
        rowLookup r m.feature_key = some vl →
        fd.valueType (Value.vStr vl) = some w →
        c2.getitem (Entity.get_feature_hash ⟨fd.entityClassName, nm⟩ m.feature) = w
          ∧ c2.containsKey
              (Entity.get_feature_hash ⟨fd.entityClassName, nm⟩ m.feature) = true := by
  intro rows
  induction rows with
  | nil =>
    intro c c2 lines _ _ r hr
    exact absurd hr (List.not_mem_nil r)
  | cons r0 rows ih =>
    intro c c2 lines h hpair r hr nm vl w hlook hfk hvt
    rw [dumpRows_cons] at h
    cases hrk : dumpRowKeys reg order fuel src r0 c [m.name_key] with
    | error err => simp only [hrk] at h; exact Except.noConfusion h
    | ok rA =>
      obtain ⟨cA, linesA⟩ := rA
      simp only [hrk] at h
      cases hrest : dumpRows reg order fuel src [m.name_key] cA rows with
      | error err => simp only [hrest] at h; exact Except.noConfusion h
      | ok rB =>
        obtain ⟨cB, linesB⟩ := rB
        simp only [hrest] at h
        have hc2 : cB = c2 := congrArg Prod.fst (Except.ok.inj h)
        subst hc2
        rw [List.pairwise_cons] at hpair
        obtain ⟨hp0, hptail⟩ := hpair
        rcases List.mem_cons.mp hr with hr0 | hrtail
        · subst hr0
          obtain ⟨nm0, vl0, w0, hlook0, hfk0, hvt0, hgi0, hck0, _⟩ :=
            c7_row_ok reg order fuel src m fd hm hfd r c cA linesA hrk
          have hnm : nm = nm0 := by
            rw [hlook] at hlook0
            exact Option.some.inj hlook0
          have hvl : vl = vl0 := by
            rw [hfk] at hfk0
            exact Option.some.inj hfk0
          subst hnm
          subst hvl
          have hw : w = w0 := by
            rw [hvt] at hvt0
            exact Option.some.inj hvt0
          subst hw
          obtain ⟨h1, h2⟩ := c7_rows_preserve reg order fuel src m fd hm hfd rows
            cA cB linesB hrest
            (Entity.get_feature_hash ⟨fd.entityClassName, nm⟩ m.feature)
            (fun r' hr' n' hn' g => (hp0 r' hr' nm n' hlook hn' g).symm)
          exact ⟨h1.trans hgi0, h2.trans hck0⟩
        · exact ih cA cB linesB hrest hptail r hrtail nm vl w hlook hfk hvt

/-- C7: hydration completeness for a source mapping a column onto a feature
(one `entity_feature_mapping`).  After `dump` processes the source for the
feature's entity type, resolving the feature on the entity named by any row
returns that row's value coerced to the feature's declared value type, as a
pure cache hit: the compute function is not invoked and the cache is
unchanged.  The rows must name pairwise-distinct entities — indeed their key
concatenations must not collide with one another's stipulated keys (cf. the
cache-isolation counterexample); strings like `"3.0"` coerce to the float
`3.0`. -/
theorem c7_hydration_completeness (reg : Registry) (order : List String)
    (fuel fuel2 : Nat) (src : DataSource) (m : EntityFeatureMapping)
    (fd : FeatureDef) (c cfin : FeatureValueCache) (lines : List String)
    (hm : src.entity_feature_mappings = [m])
    (hfd : reg m.feature = some fd)
    (hpair : src.rows.Pairwise (fun r1 r2 => ∀ n1 n2,
      rowLookup r1 m.name_key = some n1 → rowLookup r2 m.name_key = some n2 →
      ∀ g, Entity.get_feature_hash ⟨fd.entityClassName, n2⟩ g
        ≠ Entity.get_feature_hash ⟨fd.entityClassName, n1⟩ m.feature))
    (hdump : dump_source reg order fuel fd.entityClassName src c = .ok (cfin, lines)) :
    ∀ r ∈ src.rows, ∀ nm vl w, rowLookup r m.name_key = some nm →
      rowLookup r m.feature_key = some vl →
      fd.valueType (Value.vStr vl) = some w →
      Entity.calculate_feature_value reg ⟨fd.entityClassName, nm⟩ (fuel2 + 1)
          cfin m.feature
        = some (w, cfin, []) := by
  intro r hr nm vl w hlook hfk hvt
  have hnks : src.entity_name_keys reg fd.entityClassName = [m.name_key] := by
    unfold DataSource.entity_name_keys
    rw [hm]
    simp only [List.filter, hfd, beq_self_eq_true, List.map]
    rfl
  unfold dump_source at hdump
  rw [hnks] at hdump
  obtain ⟨hgi, hck⟩ := c7_rows_main reg order fuel src m fd hm hfd src.rows
    c cfin lines hdump hpair r hr nm vl w hlook hfk hvt
  rw [calc_fv_cached reg ⟨fd.entityClassName, nm⟩ fuel2 cfin m.feature hck, hgi]

/-- The two-row rectangle-widths source of the hydration witness. -/
def src7 : DataSource := ⟨"s7", [⟨"Width", "w", "rid"⟩],
  [[("rid", "r1"), ("w", "3.0")], [("rid", "r2"), ("w", "4.0")]]⟩

/-- The cache after `dump` hydrates and prints both rows of `src7`. -/
def c7cacheAfter : FeatureValueCache :=
  ⟨[("RectangleWidthr1", Value.vFloat ⟨3, 1⟩),
    ("RectangleLengthr1", Value.vFloat ⟨2, 1⟩),
    ("RectangleArear1", Value.vFloat ⟨6, 1⟩),
    ("RectangleWidthr2", Value.vFloat ⟨4, 1⟩),
    ("RectangleLengthr2", Value.vFloat ⟨2, 1⟩),
    ("RectangleArear2", Value.vFloat ⟨8, 1⟩)]⟩

theorem c7_hydration_completeness_witness :
    Entity.calculate_feature_value rectReg ⟨"Rectangle", "r1"⟩ 1 c7cacheAfter "Width"
      = some (Value.vFloat ⟨3, 1⟩, c7cacheAfter, []) := by
  refine c7_hydration_completeness rectReg ["Width", "Length", "Area"] 5 0 src7
    ⟨"Width", "w", "rid"⟩ ⟨"width", "Rectangle", pyFloat, [],
      fun _ _ => Value.vFloat (PyFloat.ofInt 3)⟩ emptyCache c7cacheAfter
    ["r1: (width=3.0, length=2.0, area=6.0)", "r2: (width=4.0, length=2.0, area=8.0)"]
    rfl rfl ?_ rfl
    [("rid", "r1"), ("w", "3.0")] (by decide) "r1" "3.0" (Value.vFloat ⟨3, 1⟩)
    (by decide) (by decide) (by decide)
  refine List.Pairwise.cons ?_
    (List.Pairwise.cons (fun r hr => absurd hr (List.not_mem_nil r)) List.Pairwise.nil)
  intro r' hr'
  have hr2 : r' = [("rid", "r2"), ("w", "4.0")] := by simpa using hr'
  subst hr2
  intro n1 n2 h1 h2 g
  have hx1 : rowLookup [("rid", "r1"), ("w", "3.0")] "rid" = some "r1" := by decide
  have hx2 : rowLookup [("rid", "r2"), ("w", "4.0")] "rid" = some "r2" := by decide
  rw [hx1] at h1
  rw [hx2] at h2
  have hn1 : "r1" = n1 := Option.some.inj h1
  have hn2 : "r2" = n2 := Option.some.inj h2
  subst hn1
  subst hn2
  exact get_feature_hash_ne_of_last_char ⟨"Rectangle", "r2"⟩ ⟨"Rectangle", "r1"⟩
    g "Width" '2' '1' (by decide) (by decide) (by decide)
